import Mathlib

/-!
Verification development for `src/smart_pointers.hpp`: a reference-counted
ownership primitive (`SharedPtr<T>`, `WeakPtr<T>`, `MakeShared`) built on a
polymorphic control block (`BasePtrCounter` with `DirectPtrCounter` /
`NonDirectPtrCounter` variants).

The embedding is a small-step trace semantics.  A `State` holds an arena of
control blocks plus the live `SharedPtr` and `WeakPtr` handles; every public
constructor, assignment operator, `reset` and destructor of the source is one
`Op`, and `step` executes it exactly as the C++ does, line by line.  Undefined
behaviour (dereferencing a null or freed counter) makes the step fail with an
`Err`, so theorems about successful runs speak only about defined executions.

Two places where the source does not do what it visibly intends are modelled
as the compiler resolves them, not as intended: `MakeShared` wraps its
freshly constructed `NonDirectPtrCounter` through the template raw-pointer
constructor `SharedPtr(Y*)` (an Exact Match, which overload resolution
prefers to the derived-to-base Conversion needed by the non-template
`SharedPtr(BasePtrCounter*)`), so the factory double-allocates and manages
the combined counter through a hidden `DirectPtrCounter<NonDirectPtrCounter>`
(see `Op.sMake` below and the `orphans` field of `State`); and a same-type
`WeakPtr` copy runs the implicitly generated memberwise copy constructor (the
template constructor at lines 287-295 never suppresses it), which does not
increment the weak count (see `Op.wCopy`).

Counters in the trace semantics are `Nat`.  The source declares them as
`uint32_t`; every in-protocol decrement is preceded by a `> 0` test (see
`sharedRelease` / `weakRelease` below), so no underflow occurs, and `Nat`
agrees with the machine counter on every trace with fewer than `2 ^ 32`
simultaneous handles.  The raw, unguarded counter member functions of
`BasePtrCounter` (lines 13-16) are modelled separately with explicit
`% 2 ^ 32` arithmetic where the wrapping itself is the point.
-/

namespace SmartPtr

deriving instance DecidableEq for Except

/-- Storage strategy of a control block: `direct` is a `DirectPtrCounter<Y>`
managing an object allocated separately from the block (lines 27-49);
`combined` is a `NonDirectPtrCounter` embedding the object inside the block
itself (lines 51-74); `directToCounter c` is the hidden
`DirectPtrCounter<NonDirectPtrCounter>` that `MakeShared` actually produces —
a direct block whose adopted "object" is the factory's combined counter,
recorded at index `c` of the `orphans` list; its `destroy()` is a `delete`
of that counter. -/
inductive BKind
  | direct
  | combined
  | directToCounter (c : Nat)
deriving Repr, DecidableEq

/-- A control block (`BasePtrCounter`, lines 7-24).  `shared_count_` and
`weak_count_` are its two counters (source type `uint32_t`; see the file
header for why the trace model uses `Nat`).  `destroyCount` and `deallocCount`
instrument how many times `destroy()` respectively `deallocate()` have been
invoked on this block; `deallocCount ≠ 0` means the block storage has been
freed.  `val` records the value the managed object was constructed from. -/
structure Block where
  kind : BKind
  shared_count_ : Nat
  weak_count_ : Nat
  destroyCount : Nat
  deallocCount : Nat
  val : Nat
deriving Repr, DecidableEq

/-- A non-null object-pointer value.  `obj b` points at the managed (or
embedded) object of block `b` of the main arena.  `counterStorage c` is the
`reinterpret_cast<T*>` of the factory counter at index `c` of `orphans`: it
points at that counter object's own storage (its block header), NOT at the
`T` embedded inside it. -/
inductive PtrVal
  | obj (b : Nat)
  | counterStorage (c : Nat)
deriving Repr, DecidableEq

/-- Does this pointer value point at a managed object (rather than at a
control block's own storage)? -/
def PtrVal.pointsToObject : PtrVal → Bool
  | .obj _ => true
  | .counterStorage _ => false

/-- The data members of `SharedPtr<T>` (lines 112-115): the control-block
pointer `ptr_counter_` and the cached object pointer `ptr_`, modelled as
`Option PtrVal` (`none` is the null pointer). -/
structure SPtr where
  ptr_counter_ : Option Nat
  ptr_ : Option PtrVal
deriving Repr, DecidableEq

/-- Trace state: the arena of all control blocks ever reached through some
handle's `ptr_counter_` (`blocks`, index = block identity; freed blocks stay
listed with `deallocCount ≠ 0`), the `SharedPtr` handles (`shared`, index =
object identity, `none` = destructed), the `WeakPtr` handles (`weak`, the
payload is the handle's `ptr_counter_` member, line 281), a tally of
allocator calls, and `orphans`: the `NonDirectPtrCounter` blocks built by
`MakeShared`.  No handle's `ptr_counter_` ever points at an orphan — the only
pointers to one are the raw `Y*`/`T*` values held by its hidden
`DirectPtrCounter` wrapper and the cached `ptr_` — so no count, `destroy()`
or `deallocate()` member is ever invoked on it and its instrumentation stays
frozen; its embedded object is destructed and its storage freed by the
`delete` inside the wrapper's `destroy()`, outside the orphan's own
`destroy()`/`deallocate()`. -/
structure State where
  blocks : List Block
  shared : List (Option SPtr)
  weak : List (Option (Option Nat))
  allocCount : Nat
  orphans : List Block
deriving Repr, DecidableEq

/-- Failure modes of a step.  `nullDeref` / `useAfterFree` model undefined
behaviour (dereferencing a null, respectively freed, `BasePtrCounter*`);
`invalidHandle` is a modelling artifact (an `Op` naming a handle that does not
exist).  `assertFailed` is produced by NO operation — the source contains no
assertions — and exists only so that claims about assertion guards can be
stated and refuted. -/
inductive Err
  | nullDeref
  | useAfterFree
  | invalidHandle
  | assertFailed
deriving Repr, DecidableEq

/-- Dereference the counter pointer `b`: yields the block, or `useAfterFree`
if its storage has already been handed back by `deallocate()`. -/
def getLiveBlock (s : State) (b : Nat) : Except Err Block :=
  match s.blocks[b]? with
  | none => .error .invalidHandle
  | some blk => if blk.deallocCount = 0 then .ok blk else .error .useAfterFree

/-- Overwrite block `b` in the arena. -/
def setBlock (s : State) (b : Nat) (blk : Block) : State :=
  { s with blocks := s.blocks.set b blk }

/-- Look up a live `SharedPtr` handle. -/
def getShared (s : State) (h : Nat) : Except Err SPtr :=
  match s.shared[h]? with
  | some (some p) => .ok p
  | _ => .error .invalidHandle

/-- Look up a live `WeakPtr` handle (its `ptr_counter_` member). -/
def getWeak (s : State) (w : Nat) : Except Err (Option Nat) :=
  match s.weak[w]? with
  | some (some c) => .ok c
  | _ => .error .invalidHandle

/-- Overwrite `SharedPtr` handle slot `h`. -/
def setShared (s : State) (h : Nat) (v : Option SPtr) : State :=
  { s with shared := s.shared.set h v }

/-- Overwrite `WeakPtr` handle slot `w`. -/
def setWeak (s : State) (w : Nat) (v : Option (Option Nat)) : State :=
  { s with weak := s.weak.set w v }

/-- `get_ptr()` of block `b`: `DirectPtrCounter::get_ptr` returns the stored
raw pointer, which `destroy()` nulls (lines 31-37) — for the factory's hidden
wrapper that stored pointer is the `reinterpret_cast` of the orphan counter;
`NonDirectPtrCounter` returns the address of the embedded object (line 57),
which survives destruction of the object. -/
def Block.objPtr (blk : Block) (b : Nat) : Option PtrVal :=
  match blk.kind with
  | .direct => if blk.destroyCount = 0 then some (.obj b) else none
  | .directToCounter c => if blk.destroyCount = 0 then some (.counterStorage c) else none
  | .combined => some (.obj b)

/-- Effect of `~SharedPtr` (lines 238-249) on an allocated block whose
`shared_count_` is positive: decrement it; if it reached `0`, `destroy()` the
object and, if `weak_count_` is also `0`, `deallocate()` the block. -/
def relBlock (blk : Block) : Block :=
  let blk1 := { blk with shared_count_ := blk.shared_count_ - 1 }
  if blk1.shared_count_ = 0 then
    let blk2 := { blk1 with destroyCount := blk1.destroyCount + 1 }
    if blk2.weak_count_ = 0 then
      { blk2 with deallocCount := blk2.deallocCount + 1 }
    else blk2
  else blk1

/-- The release protocol of `~SharedPtr` (lines 238-249), also run by `reset`
and by pre-assignment release: a no-op on an empty handle or when
`get_shared_count() = 0`, otherwise `relBlock`. -/
def sharedRelease (s : State) (ctr : Option Nat) : Except Err State :=
  match ctr with
  | none => .ok s
  | some b =>
    match getLiveBlock s b with
    | .error e => .error e
    | .ok blk =>
      if blk.shared_count_ > 0 then .ok (setBlock s b (relBlock blk)) else .ok s

/-- Effect of `~WeakPtr` (lines 356-366) on an allocated block: decrement
`weak_count_` if positive; then (outside that guard) if both counts are `0`,
`deallocate()`. -/
def wrelBlock (blk : Block) : Block :=
  let blk1 :=
    if blk.weak_count_ > 0 then { blk with weak_count_ := blk.weak_count_ - 1 }
    else blk
  if blk1.weak_count_ = 0 ∧ blk1.shared_count_ = 0 then
    { blk1 with deallocCount := blk1.deallocCount + 1 }
  else blk1

/-- The release protocol of `~WeakPtr` (lines 356-366): a no-op on an empty
handle, otherwise `wrelBlock`. -/
def weakRelease (s : State) (ctr : Option Nat) : Except Err State :=
  match ctr with
  | none => .ok s
  | some b =>
    match getLiveBlock s b with
    | .error e => .error e
    | .ok blk => .ok (setBlock s b (wrelBlock blk))

/-- Effect of the release half of `WeakPtr` move assignment (lines 342-348) on
an allocated block with `weak_count_ > 0`: decrement; if both counts reached
`0` (test here INSIDE the `weak_count_ > 0` guard, unlike `~WeakPtr`),
`deallocate()`. -/
def wmrelBlock (blk : Block) : Block :=
  let blk1 := { blk with weak_count_ := blk.weak_count_ - 1 }
  if blk1.weak_count_ = 0 ∧ blk1.shared_count_ = 0 then
    { blk1 with deallocCount := blk1.deallocCount + 1 }
  else blk1

/-- Release half of `WeakPtr<T>::operator=(WeakPtr&&)` (lines 342-348). -/
def weakMoveRelease (s : State) (ctr : Option Nat) : Except Err State :=
  match ctr with
  | none => .ok s
  | some b =>
    match getLiveBlock s b with
    | .error e => .error e
    | .ok blk =>
      if blk.weak_count_ > 0 then .ok (setBlock s b (wmrelBlock blk)) else .ok s

/-- `SharedPtr<T>::get()` (lines 210-216) applied to the members of a handle:
the cached `ptr_` if set, else `ptr_counter_->get_ptr()` (a dereference, hence
fallible) if the counter is set, else null. -/
def sharedGet (s : State) (p : SPtr) : Except Err (Option PtrVal) :=
  match p.ptr_ with
  | some x => .ok (some x)
  | none =>
    match p.ptr_counter_ with
    | none => .ok none
    | some b =>
      match getLiveBlock s b with
      | .error e => .error e
      | .ok blk => .ok (blk.objPtr b)

/-- `ptr_counter_->increment_shared_count()` through pointer `b`. -/
def incrementShared (s : State) (b : Nat) : Except Err State :=
  match getLiveBlock s b with
  | .error e => .error e
  | .ok blk => .ok (setBlock s b { blk with shared_count_ := blk.shared_count_ + 1 })

/-- `ptr_counter_->increment_weak_count()` through pointer `b`. -/
def incrementWeak (s : State) (b : Nat) : Except Err State :=
  match getLiveBlock s b with
  | .error e => .error e
  | .ok blk => .ok (setBlock s b { blk with weak_count_ := blk.weak_count_ + 1 })

/-- One source-level operation on handles.  `s…` operations are the
`SharedPtr<T>` special members (default / raw-pointer / copy / move
construction, copy / move assignment, `reset`, destruction), `sMake` is
`MakeShared`, and `w…` are the `WeakPtr<T>` special members.  Handles are
named by their index; constructors append a new handle. -/
inductive Op
  | sDefault
  | sFromRaw (v : Nat)
  | sMake (v : Nat)
  | sCopy (src : Nat)
  | sMove (src : Nat)
  | sCopyAssign (dst src : Nat)
  | sMoveAssign (dst src : Nat)
  | sReset (h : Nat)
  | sDrop (h : Nat)
  | wDefault
  | wCopy (src : Nat)
  | wMove (src : Nat)
  | wFromShared (src : Nat)
  | wCopyAssign (dst src : Nat)
  | wMoveAssign (dst src : Nat)
  | wDrop (h : Nat)
deriving Repr, DecidableEq

/-- Execute one operation, exactly as the source does.

* `sDefault`: lines 118-119 — both members null.
* `sFromRaw v`: lines 130-146 — `SharedPtr(Y* ptr)` with `ptr = new Y(v)`:
  allocate a fresh `DirectPtrCounter` (one allocator call; the pointee's own
  `new` happened at the caller and is outside the model), cache the raw
  pointer, increment the new counter to `1`.
* `sMake v`: lines 368-382 — `MakeShared` allocates a `NonDirectPtrCounter`
  with the object constructed in place from `v` (first allocator call), then
  executes `SharedPtr<T> ptr(temp_ptr)` with `temp_ptr` of type
  `NonDirectPtrCounter*`.  Overload resolution selects the template
  `SharedPtr(Y*)` constructor with `Y = NonDirectPtrCounter` (an Exact Match
  beats the derived-to-base Conversion required by the non-template
  `SharedPtr(BasePtrCounter*)`), so a SECOND block — a hidden
  `DirectPtrCounter<NonDirectPtrCounter>` — is allocated (second allocator
  call, lines 133-141) and incremented to `1`; the handle's `ptr_counter_`
  is that hidden block and its cached `ptr_` is
  `reinterpret_cast<T*>(temp_ptr)`, a pointer to the counter's storage, not
  to the constructed `T`.  The combined counter itself is left with both
  counts `0` and is recorded in `orphans`; nothing ever invokes a member on
  it again.  Finally the handle is moved out.
* `sCopy src`: lines 148-154 — copy members, then increment if non-null.
* `sMove src`: lines 156-161 — steal members, null the source's.
* `sCopyAssign dst src`: lines 163-177 — if not self, release `*this` via an
  explicit `this->~SharedPtr()`, adopt the source's members, increment.
* `sMoveAssign dst src`: lines 195-208 — if not self, release, steal, null
  the source's members.
* `sReset h`: lines 233-236 — `*this = SharedPtr<T>()`, i.e. move-assign from
  a fresh empty temporary (release, then both members null).
* `sDrop h`: lines 238-249 — the destructor.
* `wDefault`: lines 284-285.
* `wCopy src`: a same-type `WeakPtr` copy.  The constructor at lines 287-295
  is a template, and a template never serves as THE copy constructor, so the
  implicitly generated memberwise copy constructor runs instead: it copies
  `ptr_counter_` and does NOT increment the weak count.
* `wMove src`: lines 297-303 — steal `ptr_counter_`, null the source's.
* `wFromShared src`: lines 305-311 — `WeakPtr(const SharedPtr&)` copies
  `ptr_counter_` and increments the weak count through it with NO null
  check: on an empty shared handle this is a null dereference.
* `wCopyAssign dst src`: lines 326-336 — if not self, increment the weak
  count through the SOURCE's counter (no null check), then run
  `this->~WeakPtr()`.  The source's counter is never copied into
  `ptr_counter_`, so the destination keeps its old pointer value.
* `wMoveAssign dst src`: lines 338-353 — if not self, release (with the
  deallocation test inside the `weak > 0` guard), steal, null the source's.
  (`get_ptr_counter` / `reset_ptr_counter` on a `WeakPtr` are taken to read /
  null `ptr_counter_`, as the identically named `SharedPtr` members do.)
* `wDrop h`: lines 355-366 — the destructor. -/
def step (s : State) : Op → Except Err State
  | .sDefault => .ok { s with shared := s.shared ++ [some ⟨none, none⟩] }
  | .sFromRaw v =>
    .ok { s with
          blocks := s.blocks ++ [⟨.direct, 1, 0, 0, 0, v⟩],
          shared := s.shared ++ [some ⟨some s.blocks.length, some (.obj s.blocks.length)⟩],
          allocCount := s.allocCount + 1 }
  | .sMake v =>
    .ok { s with
          blocks := s.blocks ++ [⟨.directToCounter s.orphans.length, 1, 0, 0, 0, v⟩],
          shared := s.shared ++
            [some ⟨some s.blocks.length, some (.counterStorage s.orphans.length)⟩],
          allocCount := s.allocCount + 2,
          orphans := s.orphans ++ [⟨.combined, 0, 0, 0, 0, v⟩] }
  | .sCopy src =>
    match getShared s src with
    | .error e => .error e
    | .ok p =>
      match sharedGet s p with
      | .error e => .error e
      | .ok gp =>
        match p.ptr_counter_ with
        | none => .ok { s with shared := s.shared ++ [some ⟨none, gp⟩] }
        | some b => incrementShared { s with shared := s.shared ++ [some ⟨some b, gp⟩] } b
  | .sMove src =>
    match getShared s src with
    | .error e => .error e
    | .ok p =>
      match sharedGet s p with
      | .error e => .error e
      | .ok gp =>
        .ok { s with shared := (s.shared.set src (some ⟨none, none⟩)) ++ [some ⟨p.ptr_counter_, gp⟩] }
  | .sCopyAssign dst src =>
    if dst = src then .ok s
    else
      match getShared s dst with
      | .error e => .error e
      | .ok pd =>
        match getShared s src with
        | .error e => .error e
        | .ok ps =>
          match sharedRelease s pd.ptr_counter_ with
          | .error e => .error e
          | .ok s1 =>
            match sharedGet s1 ps with
            | .error e => .error e
            | .ok gp =>
              match ps.ptr_counter_ with
              | none => .ok (setShared s1 dst (some ⟨none, gp⟩))
              | some b => incrementShared (setShared s1 dst (some ⟨some b, gp⟩)) b
  | .sMoveAssign dst src =>
    if dst = src then .ok s
    else
      match getShared s dst with
      | .error e => .error e
      | .ok pd =>
        match getShared s src with
        | .error e => .error e
        | .ok ps =>
          match sharedRelease s pd.ptr_counter_ with
          | .error e => .error e
          | .ok s1 =>
            match sharedGet s1 ps with
            | .error e => .error e
            | .ok gp =>
              .ok (setShared (setShared s1 dst (some ⟨ps.ptr_counter_, gp⟩)) src (some ⟨none, none⟩))
  | .sReset h =>
    match getShared s h with
    | .error e => .error e
    | .ok p =>
      match sharedRelease s p.ptr_counter_ with
      | .error e => .error e
      | .ok s1 => .ok (setShared s1 h (some ⟨none, none⟩))
  | .sDrop h =>
    match getShared s h with
    | .error e => .error e
    | .ok p =>
      match sharedRelease s p.ptr_counter_ with
      | .error e => .error e
      | .ok s1 => .ok { s1 with shared := s1.shared.set h none }
  | .wDefault => .ok { s with weak := s.weak ++ [some none] }
  | .wCopy src =>
    match getWeak s src with
    | .error e => .error e
    | .ok c => .ok { s with weak := s.weak ++ [some c] }
  | .wMove src =>
    match getWeak s src with
    | .error e => .error e
    | .ok c => .ok { s with weak := (s.weak.set src (some none)) ++ [some c] }
  | .wFromShared src =>
    match getShared s src with
    | .error e => .error e
    | .ok p =>
      match p.ptr_counter_ with
      | none => .error .nullDeref
      | some b => incrementWeak { s with weak := s.weak ++ [some (some b)] } b
  | .wCopyAssign dst src =>
    if dst = src then .ok s
    else
      match getWeak s dst with
      | .error e => .error e
      | .ok cd =>
        match getWeak s src with
        | .error e => .error e
        | .ok cs =>
          match cs with
          | none => .error .nullDeref
          | some b =>
            match incrementWeak s b with
            | .error e => .error e
            | .ok s1 => weakRelease s1 cd
  | .wMoveAssign dst src =>
    if dst = src then .ok s
    else
      match getWeak s dst with
      | .error e => .error e
      | .ok cd =>
        match getWeak s src with
        | .error e => .error e
        | .ok cs =>
          match weakMoveRelease s cd with
          | .error e => .error e
          | .ok s1 => .ok (setWeak (setWeak s1 dst (some cs)) src (some none))
  | .wDrop h =>
    match getWeak s h with
    | .error e => .error e
    | .ok c =>
      match weakRelease s c with
      | .error e => .error e
      | .ok s1 => .ok { s1 with weak := s1.weak.set h none }

/-- The empty initial state: no blocks, no handles, no allocations. -/
def initState : State := ⟨[], [], [], 0, []⟩

/-- Run a whole trace of operations from the initial state. -/
def run (ops : List Op) : Except Err State :=
  ops.foldlM step initState

/-- `SharedPtr<T>::use_count()` (lines 228-231) of handle `h`:
`ptr_counter_ ? ptr_counter_->get_shared_count() : 0`.  `none` means `h` is
not a live handle. -/
def use_count (s : State) (h : Nat) : Option Nat :=
  match s.shared[h]? with
  | some (some p) =>
    match p.ptr_counter_ with
    | none => some 0
    | some b => (s.blocks[b]?).map Block.shared_count_
  | _ => none

/-- `SharedPtr<T>::get()` (lines 210-216) of handle `h`, as an observation:
`some r` with `r` the returned pointer (`none` = null), or `none` if `h` is
not a live handle. -/
def get_of (s : State) (h : Nat) : Option (Option PtrVal) :=
  match s.shared[h]? with
  | some (some p) =>
    match p.ptr_ with
    | some x => some (some x)
    | none =>
      match p.ptr_counter_ with
      | none => some none
      | some b =>
        match s.blocks[b]? with
        | some blk => some (blk.objPtr b)
        | none => none
  | _ => none

/-- `WeakPtr<T>::expired()` (lines 313-317) of weak handle `w`:
`!ptr_counter_ || !(ptr_counter_->get_shared_count())`.  Dereferences the
counter, hence fallible on a dangling handle. -/
def expired (s : State) (w : Nat) : Except Err Bool :=
  match getWeak s w with
  | .error e => .error e
  | .ok c =>
    match c with
    | none => .ok true
    | some b =>
      match getLiveBlock s b with
      | .error e => .error e
      | .ok blk => .ok (blk.shared_count_ == 0)

/-- `WeakPtr<T>::lock()` (lines 319-324).  The source declares the return type
`SharedPtr<T>::BasePtrCounter*` — a raw counter pointer, not a `SharedPtr` —
and its expired branch is the expression
`std::runtime_error("Попытка обратиться по устарелой ссылке")`, constructing
an exception object where a pointer is required (ill-formed C++; modelled as
an error-valued result carrying that message).  The non-expired branch
returns the raw `ptr_counter_` unchanged: no `SharedPtr` is constructed and
no count is incremented; the state is not modified at all. -/
def lock (s : State) (w : Nat) : Except Err (Except String (Option Nat)) :=
  match getWeak s w with
  | .error e => .error e
  | .ok c =>
    match expired s w with
    | .error e => .error e
    | .ok true => .ok (.error "Попытка обратиться по устарелой ссылке")
    | .ok false => .ok (.ok c)

/-- Does this handle slot hold a live `SharedPtr` whose `ptr_counter_` is
block `b`? -/
def refsB (b : Nat) : Option SPtr → Bool
  | some p => p.ptr_counter_ == some b
  | none => false

/-- Number of live `SharedPtr` handles whose `ptr_counter_` is block `b`. -/
def strongRefCount (sh : List (Option SPtr)) (b : Nat) : Nat :=
  sh.countP (refsB b)

/-- `BasePtrCounter::increment_shared_count` (line 13) on the raw `uint32_t`
member: `++shared_count_`. -/
def increment_shared_count (c : Nat) : Nat := (c + 1) % 2 ^ 32

/-- `BasePtrCounter::decrement_shared_count` (line 14) on the raw `uint32_t`
member: `--shared_count_`, i.e. subtraction modulo `2 ^ 32` — for `0 < c <
2 ^ 32` this is `c - 1`, and at `c = 0` it wraps to `2 ^ 32 - 1`.  There is
no guard of any kind. -/
def decrement_shared_count (c : Nat) : Nat := (c + (2 ^ 32 - 1)) % 2 ^ 32

/-- `BasePtrCounter::increment_weak_count` (line 15): `++weak_count_`. -/
def increment_weak_count (c : Nat) : Nat := (c + 1) % 2 ^ 32

/-- `BasePtrCounter::decrement_weak_count` (line 16): `--weak_count_`,
unguarded modular decrement exactly like `decrement_shared_count`. -/
def decrement_weak_count (c : Nat) : Nat := (c + (2 ^ 32 - 1)) % 2 ^ 32


/-! ### List bookkeeping lemmas -/

theorem getElem?_concat {α : Type} (l : List α) (v : α) (n : Nat) :
    (l ++ [v])[n]? = if n < l.length then l[n]? else if n = l.length then some v else none := by
  rw [List.getElem?_append]
  rcases Nat.lt_trichotomy n l.length with h | h | h
  · simp [h]
  · subst h
    simp
  · have h1 : ¬ n < l.length := by omega
    have h2 : n ≠ l.length := by omega
    have h3 : ([v] : List α)[n - l.length]? = none := by
      apply List.getElem?_eq_none_iff.mpr
      simp
      omega
    simp [h1, h2, h3]

theorem countP_set_add {α : Type} (p : α → Bool) (l : List α) (n : Nat) (v w : α)
    (hw : l[n]? = some w) :
    (l.set n v).countP p + (if p w then 1 else 0) = l.countP p + (if p v then 1 else 0) := by
  induction l generalizing n with
  | nil => simp at hw
  | cons a as ih =>
    cases n with
    | zero =>
      simp at hw
      subst hw
      simp [List.countP_cons]
      omega
    | succ m =>
      simp at hw
      have hrec := ih m hw
      simp [List.countP_cons]
      omega

theorem countP_concat {α : Type} (p : α → Bool) (l : List α) (a : α) :
    (l ++ [a]).countP p = l.countP p + if p a then 1 else 0 := by
  simp [List.countP_append, List.countP_cons]

/-! ### Unfolding lemmas for the primitive accessors -/

theorem getShared_ok {s : State} {h : Nat} {p : SPtr} :
    getShared s h = .ok p ↔ s.shared[h]? = some (some p) := by
  unfold getShared
  cases hx : s.shared[h]? with
  | none => simp
  | some o => cases o <;> simp

theorem getWeak_ok {s : State} {w : Nat} {c : Option Nat} :
    getWeak s w = .ok c ↔ s.weak[w]? = some (some c) := by
  unfold getWeak
  cases hx : s.weak[w]? with
  | none => simp
  | some o => cases o <;> simp

theorem getLiveBlock_ok {s : State} {b : Nat} {blk : Block} :
    getLiveBlock s b = .ok blk ↔ s.blocks[b]? = some blk ∧ blk.deallocCount = 0 := by
  unfold getLiveBlock
  cases hx : s.blocks[b]? with
  | none => simp
  | some blk' =>
    by_cases hd : blk'.deallocCount = 0
    · simp only [hd, if_true]
      constructor
      · intro h1
        cases h1
        exact ⟨rfl, hd⟩
      · rintro ⟨h1, _⟩
        cases h1
        rfl
    · simp only [hd, if_false]
      constructor
      · intro hcon
        cases hcon
      · rintro ⟨h1, hc⟩
        cases h1
        exact absurd hc hd

theorem refsB_none (b : Nat) : refsB b none = false := rfl

theorem refsB_some (b : Nat) (p : SPtr) : refsB b (some p) = (p.ptr_counter_ == some b) := rfl

theorem strongRefCount_pos {sh : List (Option SPtr)} {h : Nat} {p : SPtr} {b : Nat}
    (hh : sh[h]? = some (some p)) (hb : p.ptr_counter_ = some b) :
    1 ≤ strongRefCount sh b := by
  have hm : (some p) ∈ sh := List.getElem?_mem hh
  have hr : refsB b (some p) = true := by simp [refsB_some, hb]
  exact (List.countP_pos_iff (p := refsB b)).mpr ⟨some p, hm, hr⟩

/-! ### Effect of the release protocols on a single block -/

theorem relBlock_spec (blk : Block) (hdc : blk.destroyCount = 0) (hda : blk.deallocCount = 0) :
    (relBlock blk).kind = blk.kind ∧
    (relBlock blk).val = blk.val ∧
    (relBlock blk).shared_count_ = blk.shared_count_ - 1 ∧
    (relBlock blk).weak_count_ = blk.weak_count_ ∧
    (relBlock blk).destroyCount = (if blk.shared_count_ - 1 = 0 then 1 else 0) ∧
    (relBlock blk).deallocCount =
      (if blk.shared_count_ - 1 = 0 ∧ blk.weak_count_ = 0 then 1 else 0) := by
  unfold relBlock
  by_cases h1 : blk.shared_count_ - 1 = 0
  · by_cases h2 : blk.weak_count_ = 0 <;> simp [h1, h2, hdc, hda]
  · simp [h1, hdc, hda]

theorem wrelBlock_spec (blk : Block) (hda : blk.deallocCount = 0)
    (hcons : ¬(blk.shared_count_ = 0 ∧ blk.weak_count_ = 0)) :
    (wrelBlock blk).kind = blk.kind ∧
    (wrelBlock blk).val = blk.val ∧
    (wrelBlock blk).shared_count_ = blk.shared_count_ ∧
    (wrelBlock blk).weak_count_ = blk.weak_count_ - 1 ∧
    (wrelBlock blk).destroyCount = blk.destroyCount ∧
    (wrelBlock blk).deallocCount =
      (if blk.shared_count_ = 0 ∧ blk.weak_count_ - 1 = 0 then 1 else 0) := by
  unfold wrelBlock
  by_cases hw : blk.weak_count_ > 0
  · by_cases h2 : blk.weak_count_ - 1 = 0 ∧ blk.shared_count_ = 0
    · obtain ⟨h2a, h2b⟩ := h2
      simp [hw, h2a, h2b, hda]
    · have h2s : ¬ (blk.shared_count_ = 0 ∧ blk.weak_count_ - 1 = 0) :=
        fun hc => h2 ⟨hc.2, hc.1⟩
      simp [hw, h2, h2s, hda]
  · have hw0 : blk.weak_count_ = 0 := by omega
    have hs : ¬ blk.shared_count_ = 0 := fun hc => hcons ⟨hc, hw0⟩
    simp [hw, hw0, hs, hda]

theorem wmrelBlock_spec (blk : Block) (hda : blk.deallocCount = 0) :
    (wmrelBlock blk).kind = blk.kind ∧
    (wmrelBlock blk).val = blk.val ∧
    (wmrelBlock blk).shared_count_ = blk.shared_count_ ∧
    (wmrelBlock blk).weak_count_ = blk.weak_count_ - 1 ∧
    (wmrelBlock blk).destroyCount = blk.destroyCount ∧
    (wmrelBlock blk).deallocCount =
      (if blk.shared_count_ = 0 ∧ blk.weak_count_ - 1 = 0 then 1 else 0) := by
  unfold wmrelBlock
  by_cases h2 : blk.weak_count_ - 1 = 0 ∧ blk.shared_count_ = 0
  · obtain ⟨h2a, h2b⟩ := h2
    simp [h2a, h2b, hda]
  · have h2s : ¬ (blk.shared_count_ = 0 ∧ blk.weak_count_ - 1 = 0) :=
      fun hc => h2 ⟨hc.2, hc.1⟩
    simp [h2, h2s, hda]

/-! ### The reachable-state invariant -/

/-- Invariant of every reachable state, proven preserved by every `step`:

* `noDangle`: a live `SharedPtr` never points at freed block storage;
* `emptyPtr`: a live `SharedPtr` with null `ptr_counter_` has null `ptr_`;
* `strongEq`: each block's `shared_count_` equals the number of live
  `SharedPtr` handles whose `ptr_counter_` is that block (the central
  one-increment-one-decrement symmetry of the design);
* `destroyEq`: `destroy()` has run exactly once on a block whose strong count
  is `0` and never on one whose strong count is positive;
* `deallocEq`: `deallocate()` has run exactly once on a block whose two counts
  are both `0` and never otherwise. -/
structure Inv (s : State) : Prop where
  noDangle : ∀ (h : Nat) (p : SPtr) (b : Nat),
    s.shared[h]? = some (some p) → p.ptr_counter_ = some b →
    ∃ blk, s.blocks[b]? = some blk ∧ blk.deallocCount = 0
  emptyPtr : ∀ (h : Nat) (p : SPtr),
    s.shared[h]? = some (some p) → p.ptr_counter_ = none → p.ptr_ = none
  strongEq : ∀ (b : Nat) (blk : Block),
    s.blocks[b]? = some blk → blk.shared_count_ = strongRefCount s.shared b
  destroyEq : ∀ (b : Nat) (blk : Block),
    s.blocks[b]? = some blk → blk.destroyCount = if blk.shared_count_ = 0 then 1 else 0
  deallocEq : ∀ (b : Nat) (blk : Block),
    s.blocks[b]? = some blk →
    blk.deallocCount = if blk.shared_count_ = 0 ∧ blk.weak_count_ = 0 then 1 else 0

theorem inv_congr {s s' : State} (hInv : Inv s) (hb : s'.blocks = s.blocks)
    (hs : s'.shared = s.shared) : Inv s' := by
  refine ⟨?_, ?_, ?_, ?_, ?_⟩
  · intro h p b hh hp
    rw [hs] at hh
    rw [hb]
    exact hInv.noDangle h p b hh hp
  · intro h p hh hp
    rw [hs] at hh
    exact hInv.emptyPtr h p hh hp
  · intro b blk hbk
    rw [hb] at hbk
    rw [hs]
    exact hInv.strongEq b blk hbk
  · intro b blk hbk
    rw [hb] at hbk
    exact hInv.destroyEq b blk hbk
  · intro b blk hbk
    rw [hb] at hbk
    exact hInv.deallocEq b blk hbk

theorem inv_init : Inv initState := by
  refine ⟨?_, ?_, ?_, ?_, ?_⟩ <;> intro a b c <;> simp [initState] at *


/-! ### Counting helpers -/

theorem lt_of_getElem?_some {α : Type} {l : List α} {n : Nat} {a : α}
    (h : l[n]? = some a) : n < l.length := by
  by_contra hc
  rw [List.getElem?_eq_none_iff.mpr (by omega)] at h
  cases h

theorem countP_set_same {α : Type} {p : α → Bool} {l : List α} {n : Nat} {v w : α}
    (hw : l[n]? = some w) (hpw : p w = p v) :
    (l.set n v).countP p = l.countP p := by
  have e := countP_set_add p l n v w hw
  rw [hpw] at e
  omega

theorem countP_set_dec {α : Type} {p : α → Bool} {l : List α} {n : Nat} {v w : α}
    (hw : l[n]? = some w) (hpw : p w = true) (hpv : p v = false) :
    (l.set n v).countP p + 1 = l.countP p := by
  have e := countP_set_add p l n v w hw
  rw [hpw, hpv] at e
  simpa using e

theorem countP_set_inc {α : Type} {p : α → Bool} {l : List α} {n : Nat} {v w : α}
    (hw : l[n]? = some w) (hpw : p w = false) (hpv : p v = true) :
    (l.set n v).countP p = l.countP p + 1 := by
  have e := countP_set_add p l n v w hw
  rw [hpw, hpv] at e
  simpa using e

theorem countP_two {α : Type} (p : α → Bool) (l : List α) (i j : Nat) (a b : α)
    (hi : l[i]? = some a) (hj : l[j]? = some b) (hij : i ≠ j)
    (hpa : p a = true) (hpb : p b = true) : 2 ≤ l.countP p := by
  induction l generalizing i j with
  | nil => simp at hi
  | cons x xs ih =>
    rw [List.countP_cons]
    cases i with
    | zero =>
      cases j with
      | zero => exact absurd rfl hij
      | succ m =>
        simp at hi
        simp at hj
        have h1 : 0 < xs.countP p :=
          (List.countP_pos_iff (p := p)).mpr ⟨b, List.getElem?_mem hj, hpb⟩
        have hpx : p x = true := by rw [hi]; exact hpa
        rw [hpx, if_pos rfl]
        omega
    | succ n =>
      cases j with
      | zero =>
        simp at hi
        simp at hj
        have h1 : 0 < xs.countP p :=
          (List.countP_pos_iff (p := p)).mpr ⟨a, List.getElem?_mem hi, hpa⟩
        have hpx : p x = true := by rw [hj]; exact hpb
        rw [hpx, if_pos rfl]
        omega
      | succ m =>
        simp at hi
        simp at hj
        have hnm : n ≠ m := fun hc => hij (by rw [hc])
        have h2 := ih n m hi hj hnm
        omega

theorem refsB_eq_true {b : Nat} {p : SPtr} (h : p.ptr_counter_ = some b) :
    refsB b (some p) = true := by
  simp [refsB_some, h]

theorem refsB_eq_false_of_ne {b b' : Nat} {p : SPtr} (h : p.ptr_counter_ = some b')
    (hne : b' ≠ b) : refsB b (some p) = false := by
  simp [refsB_some, h, hne]

theorem refsB_eq_false_of_none {b : Nat} {p : SPtr} (h : p.ptr_counter_ = none) :
    refsB b (some p) = false := by
  simp [refsB_some, h]

/-- Per-step bound on how fast a strong count can fall: no single operation
decrements a block's `shared_count_` by more than one. -/
def BlocksLe (l l' : List Block) : Prop :=
  ∀ (b : Nat) (blk blk' : Block), l[b]? = some blk → l'[b]? = some blk' →
    blk.shared_count_ ≤ blk'.shared_count_ + 1

theorem blocksLe_refl (l : List Block) : BlocksLe l l := by
  intro b blk blk' h1 h2
  rw [h1] at h2
  cases h2
  omega

theorem blocksLe_concat (l : List Block) (x : Block) : BlocksLe l (l ++ [x]) := by
  intro b blk blk' h1 h2
  rw [getElem?_concat] at h2
  rw [if_pos (lt_of_getElem?_some h1), h1] at h2
  cases h2
  omega

theorem blocksLe_set (l : List Block) (b : Nat) (blk v : Block) (hb : l[b]? = some blk)
    (hle : blk.shared_count_ ≤ v.shared_count_ + 1) : BlocksLe l (l.set b v) := by
  intro x blkx blkx' h1 h2
  by_cases hxb : b = x
  · subst hxb
    rw [h1] at hb
    cases hb
    rw [List.getElem?_set_eq_of_lt v (lt_of_getElem?_some h1)] at h2
    cases h2
    exact hle
  · rw [List.getElem?_set_ne hxb] at h2
    rw [h1] at h2
    cases h2
    omega

theorem blocksLe_set2 (l : List Block) {b b' : Nat} {blk v blk' v' : Block}
    (hb : l[b]? = some blk) (hb' : l[b']? = some blk')
    (h1 : blk.shared_count_ ≤ v.shared_count_ + 1)
    (h2 : blk'.shared_count_ ≤ v'.shared_count_ + 1) :
    BlocksLe l ((l.set b v).set b' v') := by
  intro x blkx blkx' hx1 hx2
  by_cases hxb' : b' = x
  · subst hxb'
    rw [List.getElem?_set_eq_of_lt v' (by rw [List.length_set]; exact lt_of_getElem?_some hx1)] at hx2
    cases hx2
    rw [hx1] at hb'
    cases hb'
    exact h2
  · rw [List.getElem?_set_ne hxb'] at hx2
    by_cases hxb : b = x
    · subst hxb
      rw [List.getElem?_set_eq_of_lt v (lt_of_getElem?_some hx1)] at hx2
      cases hx2
      rw [hx1] at hb
      cases hb
      exact h1
    · rw [List.getElem?_set_ne hxb] at hx2
      rw [hx1] at hx2
      cases hx2
      omega


/-! ### Invariant preservation: state-shape lemmas -/

theorem inv_append_nonref {s : State} (hInv : Inv s) (v : Option SPtr)
    (hvr : ∀ q, v = some q → q.ptr_counter_ = none)
    (hvp : ∀ q, v = some q → q.ptr_ = none)
    (wl : List (Option (Option Nat))) (ac : Nat) (ol : List Block) :
    Inv ⟨s.blocks, s.shared ++ [v], wl, ac, ol⟩ := by
  have hvf : ∀ b, refsB b v = false := by
    intro b
    cases v with
    | none => rfl
    | some q => exact refsB_eq_false_of_none (hvr q rfl)
  refine ⟨?_, ?_, ?_, ?_, ?_⟩
  · intro h p b hh hp
    dsimp only at hh ⊢
    rw [getElem?_concat] at hh
    by_cases hlt : h < s.shared.length
    · rw [if_pos hlt] at hh
      exact hInv.noDangle h p b hh hp
    · rw [if_neg hlt] at hh
      by_cases heq : h = s.shared.length
      · rw [if_pos heq] at hh
        injection hh with hh
        rw [hvr p hh] at hp
        cases hp
      · rw [if_neg heq] at hh
        cases hh
  · intro h p hh hp
    dsimp only at hh
    rw [getElem?_concat] at hh
    by_cases hlt : h < s.shared.length
    · rw [if_pos hlt] at hh
      exact hInv.emptyPtr h p hh hp
    · rw [if_neg hlt] at hh
      by_cases heq : h = s.shared.length
      · rw [if_pos heq] at hh
        injection hh with hh
        exact hvp p hh
      · rw [if_neg heq] at hh
        cases hh
  · intro b blk hbk
    dsimp only at hbk ⊢
    have hold := hInv.strongEq b blk hbk
    unfold strongRefCount at hold ⊢
    rw [countP_concat, hvf b]
    simpa using hold
  · intro b blk hbk
    dsimp only at hbk
    exact hInv.destroyEq b blk hbk
  · intro b blk hbk
    dsimp only at hbk
    exact hInv.deallocEq b blk hbk

theorem inv_new_block_handle {s : State} (hInv : Inv s) (k : BKind) (v : Nat)
    (cp : Option PtrVal) (wl : List (Option (Option Nat))) (ac : Nat) (ol : List Block) :
    Inv ⟨s.blocks ++ [⟨k, 1, 0, 0, 0, v⟩],
         s.shared ++ [some ⟨some s.blocks.length, cp⟩], wl, ac, ol⟩ := by
  have hrcnew : strongRefCount s.shared s.blocks.length = 0 := by
    unfold strongRefCount
    rw [List.countP_eq_zero]
    intro o ho
    cases o with
    | none => simp [refsB]
    | some q =>
      by_cases hq : q.ptr_counter_ = some s.blocks.length
      · obtain ⟨n, hn⟩ := List.mem_iff_getElem?.mp ho
        obtain ⟨blk, hblk, _⟩ := hInv.noDangle n q s.blocks.length hn hq
        have := lt_of_getElem?_some hblk
        omega
      · simp [refsB_some, hq]
  refine ⟨?_, ?_, ?_, ?_, ?_⟩
  · intro h p b hh hp
    dsimp only at hh ⊢
    rw [getElem?_concat] at hh
    by_cases hlt : h < s.shared.length
    · rw [if_pos hlt] at hh
      obtain ⟨blk, hblk, hd⟩ := hInv.noDangle h p b hh hp
      refine ⟨blk, ?_, hd⟩
      rw [getElem?_concat, if_pos (lt_of_getElem?_some hblk)]
      exact hblk
    · rw [if_neg hlt] at hh
      by_cases heq : h = s.shared.length
      · rw [if_pos heq] at hh
        injection hh with hh
        injection hh with hh
        rw [← hh] at hp
        have hp2 : some s.blocks.length = some b := hp
        injection hp2 with hp2
        refine ⟨⟨k, 1, 0, 0, 0, v⟩, ?_, rfl⟩
        rw [getElem?_concat, ← hp2]
        simp
      · rw [if_neg heq] at hh
        cases hh
  · intro h p hh hp
    dsimp only at hh
    rw [getElem?_concat] at hh
    by_cases hlt : h < s.shared.length
    · rw [if_pos hlt] at hh
      exact hInv.emptyPtr h p hh hp
    · rw [if_neg hlt] at hh
      by_cases heq : h = s.shared.length
      · rw [if_pos heq] at hh
        injection hh with hh
        injection hh with hh
        rw [← hh] at hp
        simp at hp
      · rw [if_neg heq] at hh
        cases hh
  · intro b blk hbk
    dsimp only at hbk ⊢
    rw [getElem?_concat] at hbk
    unfold strongRefCount
    rw [countP_concat]
    by_cases hlt : b < s.blocks.length
    · rw [if_pos hlt] at hbk
      have hold := hInv.strongEq b blk hbk
      unfold strongRefCount at hold
      have hne : s.blocks.length ≠ b := by omega
      rw [refsB_eq_false_of_ne rfl hne]
      simpa using hold
    · rw [if_neg hlt] at hbk
      by_cases heq : b = s.blocks.length
      · rw [if_pos heq] at hbk
        injection hbk with hbk
        rw [← hbk]
        subst heq
        rw [refsB_eq_true rfl]
        unfold strongRefCount at hrcnew
        rw [hrcnew]
        simp
      · rw [if_neg heq] at hbk
        cases hbk
  · intro b blk hbk
    dsimp only at hbk
    rw [getElem?_concat] at hbk
    by_cases hlt : b < s.blocks.length
    · rw [if_pos hlt] at hbk
      exact hInv.destroyEq b blk hbk
    · rw [if_neg hlt] at hbk
      by_cases heq : b = s.blocks.length
      · rw [if_pos heq] at hbk
        injection hbk with hbk
        rw [← hbk]
        rfl
      · rw [if_neg heq] at hbk
        cases hbk
  · intro b blk hbk
    dsimp only at hbk
    rw [getElem?_concat] at hbk
    by_cases hlt : b < s.blocks.length
    · rw [if_pos hlt] at hbk
      exact hInv.deallocEq b blk hbk
    · rw [if_neg hlt] at hbk
      by_cases heq : b = s.blocks.length
      · rw [if_pos heq] at hbk
        injection hbk with hbk
        rw [← hbk]
        rfl
      · rw [if_neg heq] at hbk
        cases hbk

theorem inv_block_edit {s : State} (hInv : Inv s) (b : Nat) (blk blkn : Block)
    (hb : s.blocks[b]? = some blk)
    (hsc : blkn.shared_count_ = blk.shared_count_)
    (hdc : blkn.destroyCount = blk.destroyCount)
    (hda : blkn.deallocCount = if blkn.shared_count_ = 0 ∧ blkn.weak_count_ = 0 then 1 else 0)
    (wl : List (Option (Option Nat))) (ac : Nat) (ol : List Block) :
    Inv ⟨s.blocks.set b blkn, s.shared, wl, ac, ol⟩ := by
  have hbl := lt_of_getElem?_some hb
  refine ⟨?_, ?_, ?_, ?_, ?_⟩
  · intro h p b' hh hp
    dsimp only at hh ⊢
    by_cases hbb : b = b'
    · subst hbb
      refine ⟨blkn, List.getElem?_set_eq_of_lt blkn hbl, ?_⟩
      have hpos : 1 ≤ strongRefCount s.shared b := strongRefCount_pos hh hp
      have hse := hInv.strongEq b blk hb
      rw [hda]
      have hcond : ¬ (blkn.shared_count_ = 0 ∧ blkn.weak_count_ = 0) := by
        intro hc
        rw [hsc] at hc
        omega
      simp [hcond]
    · obtain ⟨blk2, h2, hd2⟩ := hInv.noDangle h p b' hh hp
      exact ⟨blk2, by rw [List.getElem?_set_ne hbb]; exact h2, hd2⟩
  · intro h p hh hp
    dsimp only at hh
    exact hInv.emptyPtr h p hh hp
  · intro b' blk2 hbk
    dsimp only at hbk ⊢
    by_cases hbb : b = b'
    · subst hbb
      rw [List.getElem?_set_eq_of_lt blkn hbl] at hbk
      injection hbk with hbk
      rw [← hbk, hsc]
      exact hInv.strongEq b blk hb
    · rw [List.getElem?_set_ne hbb] at hbk
      exact hInv.strongEq b' blk2 hbk
  · intro b' blk2 hbk
    dsimp only at hbk
    by_cases hbb : b = b'
    · subst hbb
      rw [List.getElem?_set_eq_of_lt blkn hbl] at hbk
      injection hbk with hbk
      rw [← hbk, hdc, hsc]
      exact hInv.destroyEq b blk hb
    · rw [List.getElem?_set_ne hbb] at hbk
      exact hInv.destroyEq b' blk2 hbk
  · intro b' blk2 hbk
    dsimp only at hbk
    by_cases hbb : b = b'
    · subst hbb
      rw [List.getElem?_set_eq_of_lt blkn hbl] at hbk
      injection hbk with hbk
      rw [← hbk]
      exact hda
    · rw [List.getElem?_set_ne hbb] at hbk
      exact hInv.deallocEq b' blk2 hbk


theorem inv_copy_adopt {s : State} (hInv : Inv s) {src : Nat} {p : SPtr}
    (hh : s.shared[src]? = some (some p)) {b : Nat} (hb : p.ptr_counter_ = some b)
    {blk : Block} (hblk : s.blocks[b]? = some blk) (hd0 : blk.deallocCount = 0)
    (gp : Option PtrVal) (wl : List (Option (Option Nat))) (ac : Nat) (ol : List Block) :
    Inv ⟨s.blocks.set b { blk with shared_count_ := blk.shared_count_ + 1 },
         s.shared ++ [some ⟨some b, gp⟩], wl, ac, ol⟩ := by
  have hbl := lt_of_getElem?_some hblk
  have hse := hInv.strongEq b blk hblk
  have hpos : 1 ≤ strongRefCount s.shared b := strongRefCount_pos hh hb
  have hdc0 : blk.destroyCount = 0 := by
    rw [hInv.destroyEq b blk hblk]
    have hns : ¬ blk.shared_count_ = 0 := by omega
    simp [hns]
  refine ⟨?_, ?_, ?_, ?_, ?_⟩
  · intro h q b' hh' hq
    dsimp only at hh' ⊢
    rw [getElem?_concat] at hh'
    by_cases hlt : h < s.shared.length
    · rw [if_pos hlt] at hh'
      obtain ⟨blk2, h2, hd2⟩ := hInv.noDangle h q b' hh' hq
      by_cases hbb : b = b'
      · subst hbb
        exact ⟨_, List.getElem?_set_eq_of_lt _ hbl, hd0⟩
      · exact ⟨blk2, by rw [List.getElem?_set_ne hbb]; exact h2, hd2⟩
    · rw [if_neg hlt] at hh'
      by_cases heq : h = s.shared.length
      · rw [if_pos heq] at hh'
        injection hh' with hh'
        injection hh' with hh'
        rw [← hh'] at hq
        have hq2 : some b = some b' := hq
        injection hq2 with hq2
        subst hq2
        exact ⟨_, List.getElem?_set_eq_of_lt _ hbl, hd0⟩
      · rw [if_neg heq] at hh'
        cases hh'
  · intro h q hh' hq
    dsimp only at hh'
    rw [getElem?_concat] at hh'
    by_cases hlt : h < s.shared.length
    · rw [if_pos hlt] at hh'
      exact hInv.emptyPtr h q hh' hq
    · rw [if_neg hlt] at hh'
      by_cases heq : h = s.shared.length
      · rw [if_pos heq] at hh'
        injection hh' with hh'
        injection hh' with hh'
        rw [← hh'] at hq
        simp at hq
      · rw [if_neg heq] at hh'
        cases hh'
  · intro b' blk2 hbk
    dsimp only at hbk ⊢
    unfold strongRefCount
    rw [countP_concat]
    by_cases hbb : b = b'
    · subst hbb
      rw [List.getElem?_set_eq_of_lt _ hbl] at hbk
      injection hbk with hbk
      rw [← hbk]
      rw [refsB_eq_true rfl, if_pos rfl]
      unfold strongRefCount at hse hpos
      dsimp only
      omega
    · rw [List.getElem?_set_ne hbb] at hbk
      have hold := hInv.strongEq b' blk2 hbk
      unfold strongRefCount at hold
      rw [refsB_eq_false_of_ne rfl hbb]
      simpa using hold
  · intro b' blk2 hbk
    dsimp only at hbk
    by_cases hbb : b = b'
    · subst hbb
      rw [List.getElem?_set_eq_of_lt _ hbl] at hbk
      injection hbk with hbk
      rw [← hbk]
      dsimp only
      rw [hdc0]
      have hns : ¬ blk.shared_count_ + 1 = 0 := by omega
      simp [hns]
    · rw [List.getElem?_set_ne hbb] at hbk
      exact hInv.destroyEq b' blk2 hbk
  · intro b' blk2 hbk
    dsimp only at hbk
    by_cases hbb : b = b'
    · subst hbb
      rw [List.getElem?_set_eq_of_lt _ hbl] at hbk
      injection hbk with hbk
      rw [← hbk]
      dsimp only
      rw [hd0]
      have hns : ¬ (blk.shared_count_ + 1 = 0 ∧ blk.weak_count_ = 0) := by
        intro hc
        omega
      simp [hns]
    · rw [List.getElem?_set_ne hbb] at hbk
      exact hInv.deallocEq b' blk2 hbk

theorem inv_move_ctor {s : State} (hInv : Inv s) {src : Nat} {p : SPtr}
    (hh : s.shared[src]? = some (some p)) (gp : Option PtrVal)
    (hgp : p.ptr_counter_ = none → gp = none)
    (wl : List (Option (Option Nat))) (ac : Nat) (ol : List Block) :
    Inv ⟨s.blocks, (s.shared.set src (some ⟨none, none⟩)) ++ [some ⟨p.ptr_counter_, gp⟩],
         wl, ac, ol⟩ := by
  have hsl := lt_of_getElem?_some hh
  refine ⟨?_, ?_, ?_, ?_, ?_⟩
  · intro h q b hh' hq
    dsimp only at hh' ⊢
    rw [getElem?_concat, List.length_set] at hh'
    by_cases hlt : h < s.shared.length
    · rw [if_pos hlt] at hh'
      by_cases hsh : src = h
      · subst hsh
        rw [List.getElem?_set_eq_of_lt _ hsl] at hh'
        injection hh' with hh'
        injection hh' with hh'
        rw [← hh'] at hq
        simp at hq
      · rw [List.getElem?_set_ne hsh] at hh'
        exact hInv.noDangle h q b hh' hq
    · rw [if_neg hlt] at hh'
      by_cases heq : h = s.shared.length
      · rw [if_pos heq] at hh'
        injection hh' with hh'
        injection hh' with hh'
        rw [← hh'] at hq
        have hq2 : p.ptr_counter_ = some b := hq
        exact hInv.noDangle src p b hh hq2
      · rw [if_neg heq] at hh'
        cases hh'
  · intro h q hh' hq
    dsimp only at hh'
    rw [getElem?_concat, List.length_set] at hh'
    by_cases hlt : h < s.shared.length
    · rw [if_pos hlt] at hh'
      by_cases hsh : src = h
      · subst hsh
        rw [List.getElem?_set_eq_of_lt _ hsl] at hh'
        injection hh' with hh'
        injection hh' with hh'
        rw [← hh']
      · rw [List.getElem?_set_ne hsh] at hh'
        exact hInv.emptyPtr h q hh' hq
    · rw [if_neg hlt] at hh'
      by_cases heq : h = s.shared.length
      · rw [if_pos heq] at hh'
        injection hh' with hh'
        injection hh' with hh'
        rw [← hh'] at hq ⊢
        have hq2 : p.ptr_counter_ = none := hq
        exact hgp hq2
      · rw [if_neg heq] at hh'
        cases hh'
  · intro b blk hbk
    dsimp only at hbk ⊢
    have hold := hInv.strongEq b blk hbk
    unfold strongRefCount at hold ⊢
    rw [countP_concat]
    have e1 := countP_set_add (refsB b) s.shared src (some ⟨none, none⟩) (some p) hh
    have e2 : refsB b (some (⟨p.ptr_counter_, gp⟩ : SPtr)) = refsB b (some p) := rfl
    rw [e2]
    have e3 : refsB b (some (⟨none, none⟩ : SPtr)) = false := rfl
    rw [e3, if_neg Bool.false_ne_true] at e1
    omega
  · intro b blk hbk
    dsimp only at hbk
    exact hInv.destroyEq b blk hbk
  · intro b blk hbk
    dsimp only at hbk
    exact hInv.deallocEq b blk hbk


/-! ### Invariant preservation: the strong release protocol -/

theorem sharedRelease_none_ok {s s1 : State} (hrel : sharedRelease s none = .ok s1) :
    s1 = s := by
  simp only [sharedRelease] at hrel
  injection hrel with hrel
  exact hrel.symm

theorem sharedRelease_some_ok {s : State} (hInv : Inv s) {hdl : Nat} {p : SPtr}
    (hh : s.shared[hdl]? = some (some p)) {b : Nat} (hc : p.ptr_counter_ = some b)
    {s1 : State} (hrel : sharedRelease s (some b) = .ok s1) :
    ∃ blk, s.blocks[b]? = some blk ∧ blk.deallocCount = 0 ∧ blk.destroyCount = 0 ∧
      1 ≤ blk.shared_count_ ∧ blk.shared_count_ = strongRefCount s.shared b ∧
      s1 = setBlock s b (relBlock blk) := by
  obtain ⟨blk, hblk, hd0⟩ := hInv.noDangle hdl p b hh hc
  have hgl : getLiveBlock s b = .ok blk := getLiveBlock_ok.mpr ⟨hblk, hd0⟩
  have hseq := hInv.strongEq b blk hblk
  have hpos : 1 ≤ blk.shared_count_ := by
    rw [hseq]
    exact strongRefCount_pos hh hc
  have hdc0 : blk.destroyCount = 0 := by
    rw [hInv.destroyEq b blk hblk]
    have hns : ¬ blk.shared_count_ = 0 := by omega
    simp [hns]
  refine ⟨blk, hblk, hd0, hdc0, hpos, hseq, ?_⟩
  simp only [sharedRelease, hgl] at hrel
  rw [if_pos (by omega : blk.shared_count_ > 0)] at hrel
  injection hrel with hrel
  exact hrel.symm

theorem inv_set_nonref {s : State} (hInv : Inv s) (h : Nat) (p : SPtr)
    (hh : s.shared[h]? = some (some p)) (hpc : p.ptr_counter_ = none)
    (v : Option SPtr) (hvr : ∀ q, v = some q → q.ptr_counter_ = none)
    (hvp : ∀ q, v = some q → q.ptr_ = none) :
    Inv (setShared s h v) := by
  have hvf : ∀ b, refsB b v = false := by
    intro b
    cases v with
    | none => rfl
    | some q => exact refsB_eq_false_of_none (hvr q rfl)
  refine ⟨?_, ?_, ?_, ?_, ?_⟩
  · intro h' q b' hh' hq
    simp only [setShared] at hh' ⊢
    by_cases hhe : h = h'
    · subst hhe
      rw [List.getElem?_set_eq_of_lt v (lt_of_getElem?_some hh)] at hh'
      injection hh' with hh'
      rw [hvr q hh'] at hq
      cases hq
    · rw [List.getElem?_set_ne hhe] at hh'
      exact hInv.noDangle h' q b' hh' hq
  · intro h' q hh' hq
    simp only [setShared] at hh'
    by_cases hhe : h = h'
    · subst hhe
      rw [List.getElem?_set_eq_of_lt v (lt_of_getElem?_some hh)] at hh'
      injection hh' with hh'
      exact hvp q hh'
    · rw [List.getElem?_set_ne hhe] at hh'
      exact hInv.emptyPtr h' q hh' hq
  · intro b blk hbk
    simp only [setShared] at hbk ⊢
    have hold := hInv.strongEq b blk hbk
    unfold strongRefCount at hold ⊢
    rw [countP_set_same hh ((refsB_eq_false_of_none hpc).trans (hvf b).symm)]
    exact hold
  · intro b blk hbk
    simp only [setShared] at hbk
    exact hInv.destroyEq b blk hbk
  · intro b blk hbk
    simp only [setShared] at hbk
    exact hInv.deallocEq b blk hbk

theorem inv_release_replace {s : State} (hInv : Inv s) (h : Nat) (p : SPtr)
    (hh : s.shared[h]? = some (some p)) {s1 : State}
    (hrel : sharedRelease s p.ptr_counter_ = .ok s1) (v : Option SPtr)
    (hvr : ∀ q, v = some q → q.ptr_counter_ = none)
    (hvp : ∀ q, v = some q → q.ptr_ = none) :
    Inv (setShared s1 h v) := by
  have hvf : ∀ b, refsB b v = false := by
    intro b
    cases v with
    | none => rfl
    | some q => exact refsB_eq_false_of_none (hvr q rfl)
  cases hc : p.ptr_counter_ with
  | none =>
    rw [hc] at hrel
    rw [sharedRelease_none_ok hrel]
    exact inv_set_nonref hInv h p hh hc v hvr hvp
  | some b =>
    rw [hc] at hrel
    obtain ⟨blk, hblk, hd0, hdc0, hpos, hseq, hs1⟩ :=
      sharedRelease_some_ok hInv hh hc hrel
    subst hs1
    obtain ⟨hkind, hval, hsc, hwc, hdc, hda⟩ := relBlock_spec blk hdc0 hd0
    have hbl := lt_of_getElem?_some hblk
    have ecnt : (s.shared.set h v).countP (refsB b) + 1 = s.shared.countP (refsB b) :=
      countP_set_dec hh (refsB_eq_true hc) (hvf b)
    refine ⟨?_, ?_, ?_, ?_, ?_⟩
    · intro h' q b' hh' hq
      simp only [setShared, setBlock] at hh' ⊢
      by_cases hhe : h = h'
      · subst hhe
        rw [List.getElem?_set_eq_of_lt v (lt_of_getElem?_some hh)] at hh'
        injection hh' with hh'
        rw [hvr q hh'] at hq
        cases hq
      · have hh'set : (s.shared.set h v)[h']? = some (some q) := by
          rw [List.getElem?_set_ne hhe]
          rw [List.getElem?_set_ne hhe] at hh'
          exact hh'
        rw [List.getElem?_set_ne hhe] at hh'
        by_cases hbb : b = b'
        · subst hbb
          refine ⟨relBlock blk, List.getElem?_set_eq_of_lt _ hbl, ?_⟩
          have hq1 : 1 ≤ (s.shared.set h v).countP (refsB b) := by
            have := strongRefCount_pos hh'set hq
            unfold strongRefCount at this
            exact this
          rw [hda]
          have hcond : ¬ (blk.shared_count_ - 1 = 0 ∧ blk.weak_count_ = 0) := by
            intro hcond
            unfold strongRefCount at hseq
            omega
          simp [hcond]
        · obtain ⟨blk2, h2, hd2⟩ := hInv.noDangle h' q b' hh' hq
          exact ⟨blk2, by rw [List.getElem?_set_ne hbb]; exact h2, hd2⟩
    · intro h' q hh' hq
      simp only [setShared, setBlock] at hh'
      by_cases hhe : h = h'
      · subst hhe
        rw [List.getElem?_set_eq_of_lt v (lt_of_getElem?_some hh)] at hh'
        injection hh' with hh'
        exact hvp q hh'
      · rw [List.getElem?_set_ne hhe] at hh'
        exact hInv.emptyPtr h' q hh' hq
    · intro b' blk2 hbk
      simp only [setShared, setBlock] at hbk ⊢
      unfold strongRefCount
      by_cases hbb : b = b'
      · subst hbb
        rw [List.getElem?_set_eq_of_lt _ hbl] at hbk
        injection hbk with hbk
        rw [← hbk, hsc]
        unfold strongRefCount at hseq
        omega
      · rw [List.getElem?_set_ne hbb] at hbk
        have hold := hInv.strongEq b' blk2 hbk
        unfold strongRefCount at hold
        rw [countP_set_same hh
          ((refsB_eq_false_of_ne hc hbb).trans (hvf b').symm)]
        exact hold
    · intro b' blk2 hbk
      simp only [setShared, setBlock] at hbk
      by_cases hbb : b = b'
      · subst hbb
        rw [List.getElem?_set_eq_of_lt _ hbl] at hbk
        injection hbk with hbk
        rw [← hbk, hdc, hsc]
      · rw [List.getElem?_set_ne hbb] at hbk
        exact hInv.destroyEq b' blk2 hbk
    · intro b' blk2 hbk
      simp only [setShared, setBlock] at hbk
      by_cases hbb : b = b'
      · subst hbb
        rw [List.getElem?_set_eq_of_lt _ hbl] at hbk
        injection hbk with hbk
        rw [← hbk, hda, hsc, hwc]
      · rw [List.getElem?_set_ne hbb] at hbk
        exact hInv.deallocEq b' blk2 hbk


theorem inv_set_adopt {s : State} (hInv : Inv s) {dst src : Nat} {pd ps : SPtr}
    (hdst : s.shared[dst]? = some (some pd)) (hpdc : pd.ptr_counter_ = none)
    (hsrc : s.shared[src]? = some (some ps))
    {b' : Nat} (hps : ps.ptr_counter_ = some b') (gp : Option PtrVal)
    {blk' : Block} (hb' : s.blocks[b']? = some blk') (hd0' : blk'.deallocCount = 0) :
    Inv (setBlock (setShared s dst (some ⟨some b', gp⟩)) b'
          { blk' with shared_count_ := blk'.shared_count_ + 1 }) := by
  have hbl' := lt_of_getElem?_some hb'
  have hse' := hInv.strongEq b' blk' hb'
  have hpos' : 1 ≤ strongRefCount s.shared b' := strongRefCount_pos hsrc hps
  have hdc0' : blk'.destroyCount = 0 := by
    rw [hInv.destroyEq b' blk' hb']
    have hns : ¬ blk'.shared_count_ = 0 := by
      unfold strongRefCount at hpos' hse'
      omega
    simp [hns]
  have ecnt : (s.shared.set dst (some ⟨some b', gp⟩)).countP (refsB b') =
      s.shared.countP (refsB b') + 1 :=
    countP_set_inc hdst (refsB_eq_false_of_none hpdc) (refsB_eq_true rfl)
  refine ⟨?_, ?_, ?_, ?_, ?_⟩
  · intro h q b2 hh hq
    simp only [setShared, setBlock] at hh ⊢
    by_cases hhd : dst = h
    · subst hhd
      rw [List.getElem?_set_eq_of_lt _ (lt_of_getElem?_some hdst)] at hh
      injection hh with hh
      injection hh with hh
      rw [← hh] at hq
      have hq2 : some b' = some b2 := hq
      injection hq2 with hq2
      subst hq2
      exact ⟨_, List.getElem?_set_eq_of_lt _ hbl', hd0'⟩
    · rw [List.getElem?_set_ne hhd] at hh
      by_cases hbb : b' = b2
      · subst hbb
        exact ⟨_, List.getElem?_set_eq_of_lt _ hbl', hd0'⟩
      · obtain ⟨blk2, h2, hd2⟩ := hInv.noDangle h q b2 hh hq
        exact ⟨blk2, by rw [List.getElem?_set_ne hbb]; exact h2, hd2⟩
  · intro h q hh hq
    simp only [setShared, setBlock] at hh
    by_cases hhd : dst = h
    · subst hhd
      rw [List.getElem?_set_eq_of_lt _ (lt_of_getElem?_some hdst)] at hh
      injection hh with hh
      injection hh with hh
      rw [← hh] at hq
      simp at hq
    · rw [List.getElem?_set_ne hhd] at hh
      exact hInv.emptyPtr h q hh hq
  · intro b2 blk2 hbk
    simp only [setShared, setBlock] at hbk ⊢
    unfold strongRefCount
    by_cases hbb : b' = b2
    · subst hbb
      rw [List.getElem?_set_eq_of_lt _ hbl'] at hbk
      injection hbk with hbk
      rw [← hbk]
      unfold strongRefCount at hse' hpos'
      dsimp only
      omega
    · rw [List.getElem?_set_ne hbb] at hbk
      have hold := hInv.strongEq b2 blk2 hbk
      unfold strongRefCount at hold
      rw [countP_set_same hdst
        ((refsB_eq_false_of_none hpdc).trans (refsB_eq_false_of_ne rfl hbb).symm)]
      exact hold
  · intro b2 blk2 hbk
    simp only [setShared, setBlock] at hbk
    by_cases hbb : b' = b2
    · subst hbb
      rw [List.getElem?_set_eq_of_lt _ hbl'] at hbk
      injection hbk with hbk
      rw [← hbk]
      dsimp only
      rw [hdc0']
      have hns : ¬ blk'.shared_count_ + 1 = 0 := by omega
      simp [hns]
    · rw [List.getElem?_set_ne hbb] at hbk
      exact hInv.destroyEq b2 blk2 hbk
  · intro b2 blk2 hbk
    simp only [setShared, setBlock] at hbk
    by_cases hbb : b' = b2
    · subst hbb
      rw [List.getElem?_set_eq_of_lt _ hbl'] at hbk
      injection hbk with hbk
      rw [← hbk]
      dsimp only
      rw [hd0']
      have hns : ¬ (blk'.shared_count_ + 1 = 0 ∧ blk'.weak_count_ = 0) := fun hc => by omega
      simp [hns]
    · rw [List.getElem?_set_ne hbb] at hbk
      exact hInv.deallocEq b2 blk2 hbk


theorem inv_release_adopt {s : State} (hInv : Inv s) {dst src : Nat} (hne : dst ≠ src)
    {pd ps : SPtr}
    (hdst : s.shared[dst]? = some (some pd)) (hsrc : s.shared[src]? = some (some ps))
    {b' : Nat} (hps : ps.ptr_counter_ = some b') (gp : Option PtrVal)
    {s1 : State} (hrel : sharedRelease s pd.ptr_counter_ = .ok s1)
    {blk' : Block} (hgl : getLiveBlock s1 b' = .ok blk') :
    Inv (setBlock (setShared s1 dst (some ⟨some b', gp⟩)) b'
          { blk' with shared_count_ := blk'.shared_count_ + 1 }) := by
  cases hc : pd.ptr_counter_ with
  | none =>
    rw [hc] at hrel
    obtain rfl := sharedRelease_none_ok hrel
    obtain ⟨hb', hd0'⟩ := getLiveBlock_ok.mp hgl
    exact inv_set_adopt hInv hdst hc hsrc hps gp hb' hd0'
  | some b =>
    rw [hc] at hrel
    obtain ⟨blk, hblk, hd0, hdc0, hposb, hseq, hs1⟩ := sharedRelease_some_ok hInv hdst hc hrel
    subst hs1
    obtain ⟨hkind, hval, hsc, hwc, hdc, hda⟩ := relBlock_spec blk hdc0 hd0
    have hbl := lt_of_getElem?_some hblk
    obtain ⟨hb1, hd1⟩ := getLiveBlock_ok.mp hgl
    simp only [setBlock] at hb1
    by_cases hbb' : b = b'
    · subst hbb'
      rw [List.getElem?_set_eq_of_lt _ hbl] at hb1
      injection hb1 with hb1
      subst hb1
      have h2c : 2 ≤ strongRefCount s.shared b :=
        countP_two (refsB b) s.shared dst src (some pd) (some ps) hdst hsrc hne
          (refsB_eq_true hc) (refsB_eq_true hps)
      unfold strongRefCount at h2c hseq
      have hn1 : 1 ≤ blk.shared_count_ - 1 := by omega
      have ecnt : (s.shared.set dst (some ⟨some b, gp⟩)).countP (refsB b) =
          s.shared.countP (refsB b) :=
        countP_set_same hdst ((refsB_eq_true hc).trans (refsB_eq_true rfl).symm)
      have hrd0 : (relBlock blk).deallocCount = 0 := hd1
      have hrdc0 : (relBlock blk).destroyCount = 0 := by
        rw [hdc]
        have hns : ¬ blk.shared_count_ - 1 = 0 := by omega
        simp [hns]
      refine ⟨?_, ?_, ?_, ?_, ?_⟩
      · intro h q b2 hh hq
        simp only [setShared, setBlock, List.set_set] at hh ⊢
        by_cases hhd : dst = h
        · subst hhd
          rw [List.getElem?_set_eq_of_lt _ (lt_of_getElem?_some hdst)] at hh
          injection hh with hh
          injection hh with hh
          rw [← hh] at hq
          have hq2 : some b = some b2 := hq
          injection hq2 with hq2
          subst hq2
          refine ⟨_, List.getElem?_set_eq_of_lt _ hbl, ?_⟩
          dsimp only
          exact hrd0
        · rw [List.getElem?_set_ne hhd] at hh
          by_cases hbb : b = b2
          · subst hbb
            refine ⟨_, List.getElem?_set_eq_of_lt _ hbl, ?_⟩
            dsimp only
            exact hrd0
          · obtain ⟨blk2, hh2, hd2⟩ := hInv.noDangle h q b2 hh hq
            exact ⟨blk2, by rw [List.getElem?_set_ne hbb]; exact hh2, hd2⟩
      · intro h q hh hq
        simp only [setShared, setBlock] at hh
        by_cases hhd : dst = h
        · subst hhd
          rw [List.getElem?_set_eq_of_lt _ (lt_of_getElem?_some hdst)] at hh
          injection hh with hh
          injection hh with hh
          rw [← hh] at hq
          simp at hq
        · rw [List.getElem?_set_ne hhd] at hh
          exact hInv.emptyPtr h q hh hq
      · intro b2 blk2 hbk
        simp only [setShared, setBlock, List.set_set] at hbk ⊢
        unfold strongRefCount
        by_cases hbb : b = b2
        · subst hbb
          rw [List.getElem?_set_eq_of_lt _ hbl] at hbk
          injection hbk with hbk
          rw [← hbk]
          dsimp only
          rw [ecnt, hsc]
          omega
        · rw [List.getElem?_set_ne hbb] at hbk
          have hold := hInv.strongEq b2 blk2 hbk
          unfold strongRefCount at hold
          rw [countP_set_same hdst
            ((refsB_eq_false_of_ne hc hbb).trans (refsB_eq_false_of_ne rfl hbb).symm)]
          exact hold
      · intro b2 blk2 hbk
        simp only [setShared, setBlock, List.set_set] at hbk
        by_cases hbb : b = b2
        · subst hbb
          rw [List.getElem?_set_eq_of_lt _ hbl] at hbk
          injection hbk with hbk
          rw [← hbk]
          dsimp only
          rw [hrdc0, hsc]
          have hns : ¬ blk.shared_count_ - 1 + 1 = 0 := by omega
          simp [hns]
        · rw [List.getElem?_set_ne hbb] at hbk
          exact hInv.destroyEq b2 blk2 hbk
      · intro b2 blk2 hbk
        simp only [setShared, setBlock, List.set_set] at hbk
        by_cases hbb : b = b2
        · subst hbb
          rw [List.getElem?_set_eq_of_lt _ hbl] at hbk
          injection hbk with hbk
          rw [← hbk]
          dsimp only
          rw [hrd0, hsc]
          have hns : ¬ (blk.shared_count_ - 1 + 1 = 0 ∧ (relBlock blk).weak_count_ = 0) :=
            fun hcc => by omega
          simp [hns]
        · rw [List.getElem?_set_ne hbb] at hbk
          exact hInv.deallocEq b2 blk2 hbk
    · rw [List.getElem?_set_ne hbb'] at hb1
      have hbl' := lt_of_getElem?_some hb1
      have hse' := hInv.strongEq b' blk' hb1
      have hpos' : 1 ≤ strongRefCount s.shared b' := strongRefCount_pos hsrc hps
      have hdc0' : blk'.destroyCount = 0 := by
        rw [hInv.destroyEq b' blk' hb1]
        have hns : ¬ blk'.shared_count_ = 0 := by
          unfold strongRefCount at hse' hpos'
          omega
        simp [hns]
      have hb'b : b' ≠ b := fun hcc => hbb' hcc.symm
      have ecb : (s.shared.set dst (some ⟨some b', gp⟩)).countP (refsB b) + 1 =
          s.shared.countP (refsB b) :=
        countP_set_dec hdst (refsB_eq_true hc) (refsB_eq_false_of_ne rfl hb'b)
      have ecb' : (s.shared.set dst (some ⟨some b', gp⟩)).countP (refsB b') =
          s.shared.countP (refsB b') + 1 :=
        countP_set_inc hdst (refsB_eq_false_of_ne hc hbb') (refsB_eq_true rfl)
      unfold strongRefCount at hseq hse' hpos'
      refine ⟨?_, ?_, ?_, ?_, ?_⟩
      · intro h q b2 hh hq
        simp only [setShared, setBlock] at hh ⊢
        by_cases hhd : dst = h
        · subst hhd
          rw [List.getElem?_set_eq_of_lt _ (lt_of_getElem?_some hdst)] at hh
          injection hh with hh
          injection hh with hh
          rw [← hh] at hq
          have hq2 : some b' = some b2 := hq
          injection hq2 with hq2
          subst hq2
          refine ⟨_, List.getElem?_set_eq_of_lt _ (by rw [List.length_set]; exact hbl'), ?_⟩
          dsimp only
          exact hd1
        · have hhset : (s.shared.set dst (some ⟨some b', gp⟩))[h]? = some (some q) := hh
          rw [List.getElem?_set_ne hhd] at hh
          by_cases hb2' : b' = b2
          · subst hb2'
            refine ⟨_, List.getElem?_set_eq_of_lt _ (by rw [List.length_set]; exact hbl'), ?_⟩
            dsimp only
            exact hd1
          · rw [List.getElem?_set_ne hb2']
            by_cases hbb2 : b = b2
            · subst hbb2
              refine ⟨_, List.getElem?_set_eq_of_lt _ hbl, ?_⟩
              have hq1 := strongRefCount_pos hhset hq
              unfold strongRefCount at hq1
              rw [hda]
              have hcond : ¬ (blk.shared_count_ - 1 = 0 ∧ blk.weak_count_ = 0) := by
                intro hcond
                omega
              simp [hcond]
            · obtain ⟨blk2, hh2, hd2⟩ := hInv.noDangle h q b2 hh hq
              exact ⟨blk2, by rw [List.getElem?_set_ne hbb2]; exact hh2, hd2⟩
      · intro h q hh hq
        simp only [setShared, setBlock] at hh
        by_cases hhd : dst = h
        · subst hhd
          rw [List.getElem?_set_eq_of_lt _ (lt_of_getElem?_some hdst)] at hh
          injection hh with hh
          injection hh with hh
          rw [← hh] at hq
          simp at hq
        · rw [List.getElem?_set_ne hhd] at hh
          exact hInv.emptyPtr h q hh hq
      · intro b2 blk2 hbk
        simp only [setShared, setBlock] at hbk ⊢
        unfold strongRefCount
        by_cases hb2' : b' = b2
        · subst hb2'
          rw [List.getElem?_set_eq_of_lt _ (by rw [List.length_set]; exact hbl')] at hbk
          injection hbk with hbk
          rw [← hbk]
          dsimp only
          omega
        · rw [List.getElem?_set_ne hb2'] at hbk
          by_cases hbb2 : b = b2
          · subst hbb2
            rw [List.getElem?_set_eq_of_lt _ hbl] at hbk
            injection hbk with hbk
            rw [← hbk, hsc]
            omega
          · rw [List.getElem?_set_ne hbb2] at hbk
            have hold := hInv.strongEq b2 blk2 hbk
            unfold strongRefCount at hold
            rw [countP_set_same hdst
              ((refsB_eq_false_of_ne hc hbb2).trans (refsB_eq_false_of_ne rfl hb2').symm)]
            exact hold
      · intro b2 blk2 hbk
        simp only [setShared, setBlock] at hbk
        by_cases hb2' : b' = b2
        · subst hb2'
          rw [List.getElem?_set_eq_of_lt _ (by rw [List.length_set]; exact hbl')] at hbk
          injection hbk with hbk
          rw [← hbk]
          dsimp only
          rw [hdc0']
          have hns : ¬ blk'.shared_count_ + 1 = 0 := by omega
          simp [hns]
        · rw [List.getElem?_set_ne hb2'] at hbk
          by_cases hbb2 : b = b2
          · subst hbb2
            rw [List.getElem?_set_eq_of_lt _ hbl] at hbk
            injection hbk with hbk
            rw [← hbk, hdc, hsc]
          · rw [List.getElem?_set_ne hbb2] at hbk
            exact hInv.destroyEq b2 blk2 hbk
      · intro b2 blk2 hbk
        simp only [setShared, setBlock] at hbk
        by_cases hb2' : b' = b2
        · subst hb2'
          rw [List.getElem?_set_eq_of_lt _ (by rw [List.length_set]; exact hbl')] at hbk
          injection hbk with hbk
          rw [← hbk]
          dsimp only
          rw [hd1]
          have hns : ¬ (blk'.shared_count_ + 1 = 0 ∧ blk'.weak_count_ = 0) :=
            fun hcc => by omega
          simp [hns]
        · rw [List.getElem?_set_ne hb2'] at hbk
          by_cases hbb2 : b = b2
          · subst hbb2
            rw [List.getElem?_set_eq_of_lt _ hbl] at hbk
            injection hbk with hbk
            rw [← hbk, hda, hsc, hwc]
          · rw [List.getElem?_set_ne hbb2] at hbk
            exact hInv.deallocEq b2 blk2 hbk


theorem inv_release_steal {s : State} (hInv : Inv s) {dst src : Nat} (hne : dst ≠ src)
    {pd ps : SPtr}
    (hdst : s.shared[dst]? = some (some pd)) (hsrc : s.shared[src]? = some (some ps))
    (gp : Option PtrVal) (hgp : ps.ptr_counter_ = none → gp = none)
    {s1 : State} (hrel : sharedRelease s pd.ptr_counter_ = .ok s1) :
    Inv (setShared (setShared s1 dst (some ⟨ps.ptr_counter_, gp⟩)) src (some ⟨none, none⟩)) := by
  have hds : dst ≠ src := hne
  have hsrc1 : (s.shared.set dst (some ⟨ps.ptr_counter_, gp⟩))[src]? = some (some ps) := by
    rw [List.getElem?_set_ne hds]
    exact hsrc
  have hdst2 : ((s.shared.set dst (some ⟨ps.ptr_counter_, gp⟩)).set src
      (some ⟨none, none⟩))[dst]? = some (some ⟨ps.ptr_counter_, gp⟩) := by
    rw [List.getElem?_set_ne (fun hcc => hds hcc.symm)]
    exact List.getElem?_set_eq_of_lt _ (lt_of_getElem?_some hdst)
  have ecnt : ∀ x : Nat,
      ((s.shared.set dst (some ⟨ps.ptr_counter_, gp⟩)).set src (some ⟨none, none⟩)).countP
          (refsB x) +
        (if refsB x (some pd) then 1 else 0) = s.shared.countP (refsB x) := by
    intro x
    have e1 := countP_set_add (refsB x) s.shared dst (some ⟨ps.ptr_counter_, gp⟩)
      (some pd) hdst
    have e2 := countP_set_add (refsB x) (s.shared.set dst (some ⟨ps.ptr_counter_, gp⟩)) src
      (some ⟨none, none⟩) (some ps) hsrc1
    have evd : refsB x (some (⟨ps.ptr_counter_, gp⟩ : SPtr)) = refsB x (some ps) := rfl
    rw [evd] at e1
    have eve : refsB x (some (⟨none, none⟩ : SPtr)) = false := rfl
    rw [eve, if_neg Bool.false_ne_true] at e2
    omega
  cases hc : pd.ptr_counter_ with
  | none =>
    rw [hc] at hrel
    obtain rfl := sharedRelease_none_ok hrel
    refine ⟨?_, ?_, ?_, ?_, ?_⟩
    · intro h q b2 hh hq
      simp only [setShared] at hh ⊢
      by_cases hhs : src = h
      · subst hhs
        rw [List.getElem?_set_eq_of_lt _ (by rw [List.length_set]; exact lt_of_getElem?_some hsrc)] at hh
        injection hh with hh
        injection hh with hh
        rw [← hh] at hq
        simp at hq
      · rw [List.getElem?_set_ne hhs] at hh
        by_cases hhd : dst = h
        · subst hhd
          rw [List.getElem?_set_eq_of_lt _ (lt_of_getElem?_some hdst)] at hh
          injection hh with hh
          injection hh with hh
          rw [← hh] at hq
          have hq2 : ps.ptr_counter_ = some b2 := hq
          exact hInv.noDangle src ps b2 hsrc hq2
        · rw [List.getElem?_set_ne hhd] at hh
          exact hInv.noDangle h q b2 hh hq
    · intro h q hh hq
      simp only [setShared] at hh
      by_cases hhs : src = h
      · subst hhs
        rw [List.getElem?_set_eq_of_lt _ (by rw [List.length_set]; exact lt_of_getElem?_some hsrc)] at hh
        injection hh with hh
        injection hh with hh
        rw [← hh]
      · rw [List.getElem?_set_ne hhs] at hh
        by_cases hhd : dst = h
        · subst hhd
          rw [List.getElem?_set_eq_of_lt _ (lt_of_getElem?_some hdst)] at hh
          injection hh with hh
          injection hh with hh
          rw [← hh] at hq ⊢
          have hq2 : ps.ptr_counter_ = none := hq
          exact hgp hq2
        · rw [List.getElem?_set_ne hhd] at hh
          exact hInv.emptyPtr h q hh hq
    · intro b2 blk2 hbk
      simp only [setShared] at hbk ⊢
      have hold := hInv.strongEq b2 blk2 hbk
      unfold strongRefCount at hold ⊢
      have e := ecnt b2
      rw [refsB_eq_false_of_none hc, if_neg Bool.false_ne_true] at e
      omega
    · intro b2 blk2 hbk
      simp only [setShared] at hbk
      exact hInv.destroyEq b2 blk2 hbk
    · intro b2 blk2 hbk
      simp only [setShared] at hbk
      exact hInv.deallocEq b2 blk2 hbk
  | some b =>
    rw [hc] at hrel
    obtain ⟨blk, hblk, hd0, hdc0, hposb, hseq, hs1⟩ := sharedRelease_some_ok hInv hdst hc hrel
    subst hs1
    obtain ⟨hkind, hval, hsc, hwc, hdc, hda⟩ := relBlock_spec blk hdc0 hd0
    have hbl := lt_of_getElem?_some hblk
    have ecb := ecnt b
    rw [refsB_eq_true hc, if_pos rfl] at ecb
    unfold strongRefCount at hseq
    refine ⟨?_, ?_, ?_, ?_, ?_⟩
    · intro h q b2 hh hq
      simp only [setShared, setBlock] at hh ⊢
      have hhkeep : ((s.shared.set dst (some ⟨ps.ptr_counter_, gp⟩)).set src
          (some ⟨none, none⟩))[h]? = some (some q) := hh
      by_cases hhs : src = h
      · subst hhs
        rw [List.getElem?_set_eq_of_lt _ (by rw [List.length_set]; exact lt_of_getElem?_some hsrc)] at hh
        injection hh with hh
        injection hh with hh
        rw [← hh] at hq
        simp at hq
      · rw [List.getElem?_set_ne hhs] at hh
        have hnd : ∀ b3, q.ptr_counter_ = some b3 →
            ∃ blk3, s.blocks[b3]? = some blk3 ∧ blk3.deallocCount = 0 := by
          intro b3 hq3
          by_cases hhd : dst = h
          · subst hhd
            rw [List.getElem?_set_eq_of_lt _ (lt_of_getElem?_some hdst)] at hh
            injection hh with hh
            injection hh with hh
            rw [← hh] at hq3
            have hq4 : ps.ptr_counter_ = some b3 := hq3
            exact hInv.noDangle src ps b3 hsrc hq4
          · rw [List.getElem?_set_ne hhd] at hh
            exact hInv.noDangle h q b3 hh hq3
        obtain ⟨blk3, hh3, hd3⟩ := hnd b2 hq
        by_cases hbb2 : b = b2
        · subst hbb2
          refine ⟨_, List.getElem?_set_eq_of_lt _ hbl, ?_⟩
          have hq1 := strongRefCount_pos hhkeep hq
          unfold strongRefCount at hq1
          rw [hda]
          have hcond : ¬ (blk.shared_count_ - 1 = 0 ∧ blk.weak_count_ = 0) := by
            intro hcond
            omega
          simp [hcond]
        · exact ⟨blk3, by rw [List.getElem?_set_ne hbb2]; exact hh3, hd3⟩
    · intro h q hh hq
      simp only [setShared, setBlock] at hh
      by_cases hhs : src = h
      · subst hhs
        rw [List.getElem?_set_eq_of_lt _ (by rw [List.length_set]; exact lt_of_getElem?_some hsrc)] at hh
        injection hh with hh
        injection hh with hh
        rw [← hh]
      · rw [List.getElem?_set_ne hhs] at hh
        by_cases hhd : dst = h
        · subst hhd
          rw [List.getElem?_set_eq_of_lt _ (lt_of_getElem?_some hdst)] at hh
          injection hh with hh
          injection hh with hh
          rw [← hh] at hq ⊢
          have hq2 : ps.ptr_counter_ = none := hq
          exact hgp hq2
        · rw [List.getElem?_set_ne hhd] at hh
          exact hInv.emptyPtr h q hh hq
    · intro b2 blk2 hbk
      simp only [setShared, setBlock] at hbk ⊢
      unfold strongRefCount
      by_cases hbb2 : b = b2
      · subst hbb2
        rw [List.getElem?_set_eq_of_lt _ hbl] at hbk
        injection hbk with hbk
        rw [← hbk, hsc]
        omega
      · rw [List.getElem?_set_ne hbb2] at hbk
        have hold := hInv.strongEq b2 blk2 hbk
        unfold strongRefCount at hold
        have e := ecnt b2
        rw [refsB_eq_false_of_ne hc hbb2, if_neg Bool.false_ne_true] at e
        omega
    · intro b2 blk2 hbk
      simp only [setShared, setBlock] at hbk
      by_cases hbb2 : b = b2
      · subst hbb2
        rw [List.getElem?_set_eq_of_lt _ hbl] at hbk
        injection hbk with hbk
        rw [← hbk, hdc, hsc]
      · rw [List.getElem?_set_ne hbb2] at hbk
        exact hInv.destroyEq b2 blk2 hbk
    · intro b2 blk2 hbk
      simp only [setShared, setBlock] at hbk
      by_cases hbb2 : b = b2
      · subst hbb2
        rw [List.getElem?_set_eq_of_lt _ hbl] at hbk
        injection hbk with hbk
        rw [← hbk, hda, hsc, hwc]
      · rw [List.getElem?_set_ne hbb2] at hbk
        exact hInv.deallocEq b2 blk2 hbk


/-! ### Extraction lemmas for the remaining primitives -/

theorem incrementShared_ok {s : State} {b : Nat} {s2 : State}
    (hstep : incrementShared s b = .ok s2) :
    ∃ blk, s.blocks[b]? = some blk ∧ blk.deallocCount = 0 ∧
      s2 = setBlock s b { blk with shared_count_ := blk.shared_count_ + 1 } := by
  unfold incrementShared at hstep
  cases hgl : getLiveBlock s b with
  | error e =>
    rw [hgl] at hstep
    cases hstep
  | ok blk =>
    rw [hgl] at hstep
    obtain ⟨hb, hd⟩ := getLiveBlock_ok.mp hgl
    injection hstep with hstep
    exact ⟨blk, hb, hd, hstep.symm⟩

theorem incrementWeak_ok {s : State} {b : Nat} {s2 : State}
    (hstep : incrementWeak s b = .ok s2) :
    ∃ blk, s.blocks[b]? = some blk ∧ blk.deallocCount = 0 ∧
      s2 = setBlock s b { blk with weak_count_ := blk.weak_count_ + 1 } := by
  unfold incrementWeak at hstep
  cases hgl : getLiveBlock s b with
  | error e =>
    rw [hgl] at hstep
    cases hstep
  | ok blk =>
    rw [hgl] at hstep
    obtain ⟨hb, hd⟩ := getLiveBlock_ok.mp hgl
    injection hstep with hstep
    exact ⟨blk, hb, hd, hstep.symm⟩

theorem weakRelease_none_ok {s s2 : State} (hrel : weakRelease s none = .ok s2) :
    s2 = s := by
  simp only [weakRelease] at hrel
  injection hrel with hrel
  exact hrel.symm

theorem weakRelease_some_ok {s : State} {b : Nat} {s2 : State}
    (hrel : weakRelease s (some b) = .ok s2) :
    ∃ blk, s.blocks[b]? = some blk ∧ blk.deallocCount = 0 ∧
      s2 = setBlock s b (wrelBlock blk) := by
  simp only [weakRelease] at hrel
  cases hgl : getLiveBlock s b with
  | error e =>
    rw [hgl] at hrel
    cases hrel
  | ok blk =>
    rw [hgl] at hrel
    obtain ⟨hb, hd⟩ := getLiveBlock_ok.mp hgl
    injection hrel with hrel
    exact ⟨blk, hb, hd, hrel.symm⟩

theorem weakMoveRelease_none_ok {s s2 : State} (hrel : weakMoveRelease s none = .ok s2) :
    s2 = s := by
  simp only [weakMoveRelease] at hrel
  injection hrel with hrel
  exact hrel.symm

theorem weakMoveRelease_some_ok {s : State} {b : Nat} {s2 : State}
    (hrel : weakMoveRelease s (some b) = .ok s2) :
    ∃ blk, s.blocks[b]? = some blk ∧ blk.deallocCount = 0 ∧
      ((0 < blk.weak_count_ ∧ s2 = setBlock s b (wmrelBlock blk)) ∨
       (blk.weak_count_ = 0 ∧ s2 = s)) := by
  simp only [weakMoveRelease] at hrel
  cases hgl : getLiveBlock s b with
  | error e =>
    rw [hgl] at hrel
    cases hrel
  | ok blk =>
    rw [hgl] at hrel
    dsimp only at hrel
    obtain ⟨hb, hd⟩ := getLiveBlock_ok.mp hgl
    by_cases hw : blk.weak_count_ > 0
    · rw [if_pos hw] at hrel
      injection hrel with hrel
      exact ⟨blk, hb, hd, Or.inl ⟨hw, hrel.symm⟩⟩
    · rw [if_neg hw] at hrel
      injection hrel with hrel
      exact ⟨blk, hb, hd, Or.inr ⟨by omega, hrel.symm⟩⟩

/-! ### Invariant preservation for the weak-count edits -/

theorem inv_weakEdit_inc {s : State} (hInv : Inv s) {b : Nat} {blk : Block}
    (hb : s.blocks[b]? = some blk) (hd : blk.deallocCount = 0)
    (wl : List (Option (Option Nat))) (ac : Nat) (ol : List Block) :
    Inv ⟨s.blocks.set b { blk with weak_count_ := blk.weak_count_ + 1 }, s.shared,
         wl, ac, ol⟩ := by
  apply inv_block_edit hInv b blk { blk with weak_count_ := blk.weak_count_ + 1 } hb rfl rfl
  dsimp only
  have hns : ¬ (blk.shared_count_ = 0 ∧ blk.weak_count_ + 1 = 0) := fun hcc => by omega
  simp [hns, hd]

theorem inv_weakEdit_rel {s : State} (hInv : Inv s) {b : Nat} {blk : Block}
    (hb : s.blocks[b]? = some blk) (hd : blk.deallocCount = 0)
    (wl : List (Option (Option Nat))) (ac : Nat) (ol : List Block) :
    Inv ⟨s.blocks.set b (wrelBlock blk), s.shared, wl, ac, ol⟩ := by
  have hcons : ¬ (blk.shared_count_ = 0 ∧ blk.weak_count_ = 0) := by
    intro hcc
    have := hInv.deallocEq b blk hb
    rw [hd] at this
    simp [hcc.1, hcc.2] at this
  obtain ⟨hkind, hval, hsc, hwc, hdc, hda⟩ := wrelBlock_spec blk hd hcons
  apply inv_block_edit hInv b blk _ hb hsc hdc
  rw [hda, hsc, hwc]

theorem inv_weakEdit_mrel {s : State} (hInv : Inv s) {b : Nat} {blk : Block}
    (hb : s.blocks[b]? = some blk) (hd : blk.deallocCount = 0)
    (wl : List (Option (Option Nat))) (ac : Nat) (ol : List Block) :
    Inv ⟨s.blocks.set b (wmrelBlock blk), s.shared, wl, ac, ol⟩ := by
  obtain ⟨hkind, hval, hsc, hwc, hdc, hda⟩ := wmrelBlock_spec blk hd
  apply inv_block_edit hInv b blk _ hb hsc hdc
  rw [hda, hsc, hwc]

/-! ### Per-step bound on strong-count changes -/

theorem relBlock_shared (blk : Block) :
    (relBlock blk).shared_count_ = blk.shared_count_ - 1 := by
  unfold relBlock
  by_cases h1 : blk.shared_count_ - 1 = 0
  · by_cases h2 : blk.weak_count_ = 0 <;> simp [h1, h2]
  · simp [h1]

theorem wrelBlock_shared (blk : Block) :
    (wrelBlock blk).shared_count_ = blk.shared_count_ := by
  unfold wrelBlock
  by_cases hw : blk.weak_count_ > 0 <;> simp only [hw, if_true, if_false] <;> split <;> rfl

theorem wmrelBlock_shared (blk : Block) :
    (wmrelBlock blk).shared_count_ = blk.shared_count_ := by
  unfold wmrelBlock
  dsimp only
  split <;> rfl

theorem blocksLe_sharedRelease {s : State} {ctr : Option Nat} {s1 : State}
    (hrel : sharedRelease s ctr = .ok s1) : BlocksLe s.blocks s1.blocks := by
  cases ctr with
  | none =>
    rw [sharedRelease_none_ok hrel]
    exact blocksLe_refl _
  | some b =>
    simp only [sharedRelease] at hrel
    cases hgl : getLiveBlock s b with
    | error e =>
      rw [hgl] at hrel
      cases hrel
    | ok blk =>
      rw [hgl] at hrel
      dsimp only at hrel
      obtain ⟨hb, _⟩ := getLiveBlock_ok.mp hgl
      by_cases hp : blk.shared_count_ > 0
      · rw [if_pos hp] at hrel
        injection hrel with hrel
        rw [← hrel]
        apply blocksLe_set _ _ _ _ hb
        rw [relBlock_shared]
        omega
      · rw [if_neg hp] at hrel
        injection hrel with hrel
        rw [← hrel]
        exact blocksLe_refl _


theorem sharedRelease_some_ok_raw {s : State} {b : Nat} {s1 : State}
    (hrel : sharedRelease s (some b) = .ok s1) :
    ∃ blk, s.blocks[b]? = some blk ∧ blk.deallocCount = 0 ∧
      ((0 < blk.shared_count_ ∧ s1 = setBlock s b (relBlock blk)) ∨
       (blk.shared_count_ = 0 ∧ s1 = s)) := by
  simp only [sharedRelease] at hrel
  cases hgl : getLiveBlock s b with
  | error e =>
    rw [hgl] at hrel
    cases hrel
  | ok blk =>
    rw [hgl] at hrel
    dsimp only at hrel
    obtain ⟨hb, hd⟩ := getLiveBlock_ok.mp hgl
    by_cases hp : blk.shared_count_ > 0
    · rw [if_pos hp] at hrel
      injection hrel with hrel
      exact ⟨blk, hb, hd, Or.inl ⟨hp, hrel.symm⟩⟩
    · rw [if_neg hp] at hrel
      injection hrel with hrel
      exact ⟨blk, hb, hd, Or.inr ⟨by omega, hrel.symm⟩⟩

theorem blocksLe_release_inc {s : State} {ctr : Option Nat} {s1 : State}
    (hrel : sharedRelease s ctr = .ok s1) {b' : Nat} {blkA : Block}
    (hbA : s1.blocks[b']? = some blkA) :
    BlocksLe s.blocks
      (s1.blocks.set b' { blkA with shared_count_ := blkA.shared_count_ + 1 }) := by
  cases ctr with
  | none =>
    obtain rfl := sharedRelease_none_ok hrel
    apply blocksLe_set _ _ _ _ hbA
    dsimp only
    omega
  | some b =>
    obtain ⟨blk, hb, hd, hcase⟩ := sharedRelease_some_ok_raw hrel
    rcases hcase with ⟨hp, rfl⟩ | ⟨hz, rfl⟩
    · simp only [setBlock] at hbA ⊢
      by_cases hbb : b = b'
      · subst hbb
        rw [List.getElem?_set_eq_of_lt _ (lt_of_getElem?_some hb)] at hbA
        injection hbA with hbA
        rw [List.set_set]
        apply blocksLe_set _ _ _ _ hb
        rw [← hbA]
        dsimp only
        rw [relBlock_shared]
        omega
      · rw [List.getElem?_set_ne hbb] at hbA
        apply blocksLe_set2 _ hb hbA
        · rw [relBlock_shared]
          omega
        · dsimp only
          omega
    · apply blocksLe_set _ _ _ _ hbA
      dsimp only
      omega


/-! ### Preservation, operation by operation -/

theorem step_inv_sDefault {s s' : State} (hInv : Inv s)
    (hstep : step s .sDefault = .ok s') : Inv s' ∧ BlocksLe s.blocks s'.blocks := by
  simp only [step] at hstep
  injection hstep with hstep
  subst hstep
  refine ⟨?_, blocksLe_refl _⟩
  exact inv_append_nonref hInv (some ⟨none, none⟩)
    (fun q hq => by injection hq with hq; rw [← hq])
    (fun q hq => by injection hq with hq; rw [← hq]) s.weak s.allocCount s.orphans

theorem step_inv_sFromRaw {s s' : State} {v : Nat} (hInv : Inv s)
    (hstep : step s (.sFromRaw v) = .ok s') : Inv s' ∧ BlocksLe s.blocks s'.blocks := by
  simp only [step] at hstep
  injection hstep with hstep
  subst hstep
  exact ⟨inv_new_block_handle hInv .direct v (some (.obj s.blocks.length)) s.weak
    (s.allocCount + 1) s.orphans, blocksLe_concat _ _⟩

theorem step_inv_sMake {s s' : State} {v : Nat} (hInv : Inv s)
    (hstep : step s (.sMake v) = .ok s') : Inv s' ∧ BlocksLe s.blocks s'.blocks := by
  simp only [step] at hstep
  injection hstep with hstep
  subst hstep
  exact ⟨inv_new_block_handle hInv (.directToCounter s.orphans.length) v
    (some (.counterStorage s.orphans.length)) s.weak (s.allocCount + 2)
    (s.orphans ++ [⟨.combined, 0, 0, 0, 0, v⟩]), blocksLe_concat _ _⟩

theorem step_inv_sCopy {s s' : State} {src : Nat} (hInv : Inv s)
    (hstep : step s (.sCopy src) = .ok s') : Inv s' ∧ BlocksLe s.blocks s'.blocks := by
  simp only [step] at hstep
  cases hgs : getShared s src with
  | error e =>
    rw [hgs] at hstep
    cases hstep
  | ok p =>
  rw [hgs] at hstep
  dsimp only at hstep
  cases hget : sharedGet s p with
  | error e =>
    rw [hget] at hstep
    cases hstep
  | ok gp =>
  rw [hget] at hstep
  dsimp only at hstep
  have hh := getShared_ok.mp hgs
  cases hc : p.ptr_counter_ with
  | none =>
    rw [hc] at hstep
    dsimp only at hstep
    injection hstep with hstep
    subst hstep
    have hptr : p.ptr_ = none := hInv.emptyPtr src p hh hc
    have hgp : gp = none := by
      simp only [sharedGet, hptr, hc] at hget
      injection hget with hget
      exact hget.symm
    subst hgp
    refine ⟨?_, blocksLe_refl _⟩
    exact inv_append_nonref hInv (some ⟨none, none⟩)
      (fun q hq => by injection hq with hq; rw [← hq])
      (fun q hq => by injection hq with hq; rw [← hq]) s.weak s.allocCount s.orphans
  | some b =>
    rw [hc] at hstep
    dsimp only at hstep
    obtain ⟨blkA, hbA, hdA, hs'⟩ := incrementShared_ok hstep
    subst hs'
    have hbA1 : s.blocks[b]? = some blkA := hbA
    refine ⟨inv_copy_adopt hInv hh hc hbA1 hdA gp s.weak s.allocCount s.orphans, ?_⟩
    apply blocksLe_set _ _ _ _ hbA1
    dsimp only
    omega

theorem step_inv_sMove {s s' : State} {src : Nat} (hInv : Inv s)
    (hstep : step s (.sMove src) = .ok s') : Inv s' ∧ BlocksLe s.blocks s'.blocks := by
  simp only [step] at hstep
  cases hgs : getShared s src with
  | error e =>
    rw [hgs] at hstep
    cases hstep
  | ok p =>
  rw [hgs] at hstep
  dsimp only at hstep
  cases hget : sharedGet s p with
  | error e =>
    rw [hget] at hstep
    cases hstep
  | ok gp =>
  rw [hget] at hstep
  dsimp only at hstep
  injection hstep with hstep
  subst hstep
  have hh := getShared_ok.mp hgs
  have hgp : p.ptr_counter_ = none → gp = none := by
    intro hc
    have hptr : p.ptr_ = none := hInv.emptyPtr src p hh hc
    simp only [sharedGet, hptr, hc] at hget
    injection hget with hget
    exact hget.symm
  exact ⟨inv_move_ctor hInv hh gp hgp s.weak s.allocCount s.orphans, blocksLe_refl _⟩

theorem step_inv_sCopyAssign {s s' : State} {dst src : Nat} (hInv : Inv s)
    (hstep : step s (.sCopyAssign dst src) = .ok s') : Inv s' ∧ BlocksLe s.blocks s'.blocks := by
  simp only [step] at hstep
  by_cases hde : dst = src
  · rw [if_pos hde] at hstep
    injection hstep with hstep
    subst hstep
    exact ⟨hInv, blocksLe_refl _⟩
  · rw [if_neg hde] at hstep
    cases hgd : getShared s dst with
    | error e =>
      rw [hgd] at hstep
      cases hstep
    | ok pd =>
    rw [hgd] at hstep
    dsimp only at hstep
    cases hgs : getShared s src with
    | error e =>
      rw [hgs] at hstep
      cases hstep
    | ok ps =>
    rw [hgs] at hstep
    dsimp only at hstep
    cases hr : sharedRelease s pd.ptr_counter_ with
    | error e =>
      rw [hr] at hstep
      cases hstep
    | ok s1 =>
    rw [hr] at hstep
    dsimp only at hstep
    cases hget : sharedGet s1 ps with
    | error e =>
      rw [hget] at hstep
      cases hstep
    | ok gp =>
    rw [hget] at hstep
    dsimp only at hstep
    have hpd := getShared_ok.mp hgd
    have hps := getShared_ok.mp hgs
    cases hc : ps.ptr_counter_ with
    | none =>
      rw [hc] at hstep
      dsimp only at hstep
      injection hstep with hstep
      subst hstep
      have hptr : ps.ptr_ = none := hInv.emptyPtr src ps hps hc
      have hgp : gp = none := by
        simp only [sharedGet, hptr, hc] at hget
        injection hget with hget
        exact hget.symm
      subst hgp
      refine ⟨?_, ?_⟩
      · exact inv_release_replace hInv dst pd hpd hr (some ⟨none, none⟩)
          (fun q hq => by injection hq with hq; rw [← hq])
          (fun q hq => by injection hq with hq; rw [← hq])
      · have hble := blocksLe_sharedRelease hr
        exact hble
    | some b' =>
      rw [hc] at hstep
      dsimp only at hstep
      obtain ⟨blkA, hbA, hdA, hs'⟩ := incrementShared_ok hstep
      subst hs'
      have hbA1 : s1.blocks[b']? = some blkA := hbA
      have hglA : getLiveBlock s1 b' = .ok blkA := getLiveBlock_ok.mpr ⟨hbA1, hdA⟩
      exact ⟨inv_release_adopt hInv hde hpd hps hc gp hr hglA,
        blocksLe_release_inc hr hbA1⟩

theorem step_inv_sMoveAssign {s s' : State} {dst src : Nat} (hInv : Inv s)
    (hstep : step s (.sMoveAssign dst src) = .ok s') : Inv s' ∧ BlocksLe s.blocks s'.blocks := by
  simp only [step] at hstep
  by_cases hde : dst = src
  · rw [if_pos hde] at hstep
    injection hstep with hstep
    subst hstep
    exact ⟨hInv, blocksLe_refl _⟩
  · rw [if_neg hde] at hstep
    cases hgd : getShared s dst with
    | error e =>
      rw [hgd] at hstep
      cases hstep
    | ok pd =>
    rw [hgd] at hstep
    dsimp only at hstep
    cases hgs : getShared s src with
    | error e =>
      rw [hgs] at hstep
      cases hstep
    | ok ps =>
    rw [hgs] at hstep
    dsimp only at hstep
    cases hr : sharedRelease s pd.ptr_counter_ with
    | error e =>
      rw [hr] at hstep
      cases hstep
    | ok s1 =>
    rw [hr] at hstep
    dsimp only at hstep
    cases hget : sharedGet s1 ps with
    | error e =>
      rw [hget] at hstep
      cases hstep
    | ok gp =>
    rw [hget] at hstep
    dsimp only at hstep
    injection hstep with hstep
    subst hstep
    have hpd := getShared_ok.mp hgd
    have hps := getShared_ok.mp hgs
    have hgp : ps.ptr_counter_ = none → gp = none := by
      intro hc
      have hptr : ps.ptr_ = none := hInv.emptyPtr src ps hps hc
      simp only [sharedGet, hptr, hc] at hget
      injection hget with hget
      exact hget.symm
    refine ⟨inv_release_steal hInv hde hpd hps gp hgp hr, ?_⟩
    have hble := blocksLe_sharedRelease hr
    exact hble

theorem step_inv_sReset {s s' : State} {h : Nat} (hInv : Inv s)
    (hstep : step s (.sReset h) = .ok s') : Inv s' ∧ BlocksLe s.blocks s'.blocks := by
  simp only [step] at hstep
  cases hgs : getShared s h with
  | error e =>
    rw [hgs] at hstep
    cases hstep
  | ok p =>
  rw [hgs] at hstep
  dsimp only at hstep
  cases hr : sharedRelease s p.ptr_counter_ with
  | error e =>
    rw [hr] at hstep
    cases hstep
  | ok s1 =>
  rw [hr] at hstep
  dsimp only at hstep
  injection hstep with hstep
  subst hstep
  have hh := getShared_ok.mp hgs
  refine ⟨?_, ?_⟩
  · exact inv_release_replace hInv h p hh hr (some ⟨none, none⟩)
      (fun q hq => by injection hq with hq; rw [← hq])
      (fun q hq => by injection hq with hq; rw [← hq])
  · have hble := blocksLe_sharedRelease hr
    exact hble

theorem step_inv_sDrop {s s' : State} {h : Nat} (hInv : Inv s)
    (hstep : step s (.sDrop h) = .ok s') : Inv s' ∧ BlocksLe s.blocks s'.blocks := by
  simp only [step] at hstep
  cases hgs : getShared s h with
  | error e =>
    rw [hgs] at hstep
    cases hstep
  | ok p =>
  rw [hgs] at hstep
  dsimp only at hstep
  cases hr : sharedRelease s p.ptr_counter_ with
  | error e =>
    rw [hr] at hstep
    cases hstep
  | ok s1 =>
  rw [hr] at hstep
  dsimp only at hstep
  injection hstep with hstep
  subst hstep
  have hh := getShared_ok.mp hgs
  refine ⟨?_, ?_⟩
  · exact inv_release_replace hInv h p hh hr none (fun q hq => by cases hq) (fun q hq => by cases hq)
  · have hble := blocksLe_sharedRelease hr
    exact hble


theorem step_inv_wDefault {s s' : State} (hInv : Inv s)
    (hstep : step s .wDefault = .ok s') : Inv s' ∧ BlocksLe s.blocks s'.blocks := by
  simp only [step] at hstep
  injection hstep with hstep
  subst hstep
  exact ⟨inv_congr hInv rfl rfl, blocksLe_refl _⟩

theorem step_inv_wCopy {s s' : State} {src : Nat} (hInv : Inv s)
    (hstep : step s (.wCopy src) = .ok s') : Inv s' ∧ BlocksLe s.blocks s'.blocks := by
  simp only [step] at hstep
  cases hgw : getWeak s src with
  | error e =>
    rw [hgw] at hstep
    cases hstep
  | ok c =>
  rw [hgw] at hstep
  dsimp only at hstep
  injection hstep with hstep
  subst hstep
  exact ⟨inv_congr hInv rfl rfl, blocksLe_refl _⟩

theorem step_inv_wMove {s s' : State} {src : Nat} (hInv : Inv s)
    (hstep : step s (.wMove src) = .ok s') : Inv s' ∧ BlocksLe s.blocks s'.blocks := by
  simp only [step] at hstep
  cases hgw : getWeak s src with
  | error e =>
    rw [hgw] at hstep
    cases hstep
  | ok c =>
  rw [hgw] at hstep
  dsimp only at hstep
  injection hstep with hstep
  subst hstep
  exact ⟨inv_congr hInv rfl rfl, blocksLe_refl _⟩

theorem step_inv_wFromShared {s s' : State} {src : Nat} (hInv : Inv s)
    (hstep : step s (.wFromShared src) = .ok s') : Inv s' ∧ BlocksLe s.blocks s'.blocks := by
  simp only [step] at hstep
  cases hgs : getShared s src with
  | error e =>
    rw [hgs] at hstep
    cases hstep
  | ok p =>
  rw [hgs] at hstep
  dsimp only at hstep
  cases hc : p.ptr_counter_ with
  | none =>
    rw [hc] at hstep
    cases hstep
  | some b =>
    rw [hc] at hstep
    dsimp only at hstep
    obtain ⟨blkA, hbA, hdA, hs'⟩ := incrementWeak_ok hstep
    subst hs'
    have hbA1 : s.blocks[b]? = some blkA := hbA
    refine ⟨inv_weakEdit_inc hInv hbA1 hdA _ s.allocCount s.orphans, ?_⟩
    apply blocksLe_set _ _ _ _ hbA1
    dsimp only
    omega

theorem step_inv_wCopyAssign {s s' : State} {dst src : Nat} (hInv : Inv s)
    (hstep : step s (.wCopyAssign dst src) = .ok s') : Inv s' ∧ BlocksLe s.blocks s'.blocks := by
  simp only [step] at hstep
  by_cases hde : dst = src
  · rw [if_pos hde] at hstep
    injection hstep with hstep
    subst hstep
    exact ⟨hInv, blocksLe_refl _⟩
  · rw [if_neg hde] at hstep
    cases hgd : getWeak s dst with
    | error e =>
      rw [hgd] at hstep
      cases hstep
    | ok cd =>
    rw [hgd] at hstep
    dsimp only at hstep
    cases hgs : getWeak s src with
    | error e =>
      rw [hgs] at hstep
      cases hstep
    | ok cs =>
    rw [hgs] at hstep
    dsimp only at hstep
    cases cs with
    | none => cases hstep
    | some b =>
      dsimp only at hstep
      cases hicw : incrementWeak s b with
      | error e =>
        rw [hicw] at hstep
        cases hstep
      | ok s1 =>
      rw [hicw] at hstep
      dsimp only at hstep
      obtain ⟨blk, hb, hd, hs1⟩ := incrementWeak_ok hicw
      subst hs1
      have hInv1 : Inv (setBlock s b { blk with weak_count_ := blk.weak_count_ + 1 }) :=
        inv_weakEdit_inc hInv hb hd s.weak s.allocCount s.orphans
      cases cd with
      | none =>
        obtain rfl := weakRelease_none_ok hstep
        refine ⟨hInv1, ?_⟩
        apply blocksLe_set _ _ _ _ hb
        dsimp only
        omega
      | some b2 =>
        obtain ⟨blk2, hb2, hd2, hs'⟩ := weakRelease_some_ok hstep
        subst hs'
        refine ⟨?_, ?_⟩
        · exact inv_weakEdit_rel hInv1 hb2 hd2 _ _ _
        · simp only [setBlock] at hb2 ⊢
          by_cases hbb : b = b2
          · subst hbb
            rw [List.getElem?_set_eq_of_lt _ (lt_of_getElem?_some hb)] at hb2
            injection hb2 with hb2
            rw [List.set_set]
            apply blocksLe_set _ _ _ _ hb
            rw [wrelBlock_shared, ← hb2]
            dsimp only
            omega
          · rw [List.getElem?_set_ne hbb] at hb2
            apply blocksLe_set2 _ hb hb2
            · dsimp only
              omega
            · rw [wrelBlock_shared]
              omega

theorem step_inv_wMoveAssign {s s' : State} {dst src : Nat} (hInv : Inv s)
    (hstep : step s (.wMoveAssign dst src) = .ok s') : Inv s' ∧ BlocksLe s.blocks s'.blocks := by
  simp only [step] at hstep
  by_cases hde : dst = src
  · rw [if_pos hde] at hstep
    injection hstep with hstep
    subst hstep
    exact ⟨hInv, blocksLe_refl _⟩
  · rw [if_neg hde] at hstep
    cases hgd : getWeak s dst with
    | error e =>
      rw [hgd] at hstep
      cases hstep
    | ok cd =>
    rw [hgd] at hstep
    dsimp only at hstep
    cases hgs : getWeak s src with
    | error e =>
      rw [hgs] at hstep
      cases hstep
    | ok cs =>
    rw [hgs] at hstep
    dsimp only at hstep
    cases hmr : weakMoveRelease s cd with
    | error e =>
      rw [hmr] at hstep
      cases hstep
    | ok s1 =>
    rw [hmr] at hstep
    dsimp only at hstep
    injection hstep with hstep
    subst hstep
    cases cd with
    | none =>
      obtain rfl := weakMoveRelease_none_ok hmr
      exact ⟨inv_congr hInv rfl rfl, blocksLe_refl _⟩
    | some b =>
      obtain ⟨blk, hb, hd, hcase⟩ := weakMoveRelease_some_ok hmr
      rcases hcase with ⟨hw, rfl⟩ | ⟨hz, rfl⟩
      · refine ⟨?_, ?_⟩
        · exact inv_congr (inv_weakEdit_mrel hInv hb hd s.weak s.allocCount s.orphans) rfl rfl
        · apply blocksLe_set _ _ _ _ hb
          rw [wmrelBlock_shared]
          omega
      · exact ⟨inv_congr hInv rfl rfl, blocksLe_refl _⟩

theorem step_inv_wDrop {s s' : State} {h : Nat} (hInv : Inv s)
    (hstep : step s (.wDrop h) = .ok s') : Inv s' ∧ BlocksLe s.blocks s'.blocks := by
  simp only [step] at hstep
  cases hgw : getWeak s h with
  | error e =>
    rw [hgw] at hstep
    cases hstep
  | ok c =>
  rw [hgw] at hstep
  dsimp only at hstep
  cases hwr : weakRelease s c with
  | error e =>
    rw [hwr] at hstep
    cases hstep
  | ok s1 =>
  rw [hwr] at hstep
  dsimp only at hstep
  injection hstep with hstep
  subst hstep
  cases c with
  | none =>
    obtain rfl := weakRelease_none_ok hwr
    exact ⟨inv_congr hInv rfl rfl, blocksLe_refl _⟩
  | some b =>
    obtain ⟨blk, hb, hd, hs1⟩ := weakRelease_some_ok hwr
    subst hs1
    refine ⟨?_, ?_⟩
    · exact inv_congr (inv_weakEdit_rel hInv hb hd s.weak s.allocCount s.orphans) rfl rfl
    · apply blocksLe_set _ _ _ _ hb
      rw [wrelBlock_shared]
      omega

/-- Every successful step preserves the reachable-state invariant, and no step
decreases any block's strong count by more than one. -/
theorem step_inv {s : State} {op : Op} {s' : State} (hInv : Inv s)
    (hstep : step s op = .ok s') : Inv s' ∧ BlocksLe s.blocks s'.blocks := by
  cases op with
  | sDefault => exact step_inv_sDefault hInv hstep
  | sFromRaw v => exact step_inv_sFromRaw hInv hstep
  | sMake v => exact step_inv_sMake hInv hstep
  | sCopy src => exact step_inv_sCopy hInv hstep
  | sMove src => exact step_inv_sMove hInv hstep
  | sCopyAssign dst src => exact step_inv_sCopyAssign hInv hstep
  | sMoveAssign dst src => exact step_inv_sMoveAssign hInv hstep
  | sReset h => exact step_inv_sReset hInv hstep
  | sDrop h => exact step_inv_sDrop hInv hstep
  | wDefault => exact step_inv_wDefault hInv hstep
  | wCopy src => exact step_inv_wCopy hInv hstep
  | wMove src => exact step_inv_wMove hInv hstep
  | wFromShared src => exact step_inv_wFromShared hInv hstep
  | wCopyAssign dst src => exact step_inv_wCopyAssign hInv hstep
  | wMoveAssign dst src => exact step_inv_wMoveAssign hInv hstep
  | wDrop h => exact step_inv_wDrop hInv hstep

/-- Every state produced by running a trace from the initial state satisfies
the invariant. -/
theorem run_inv {ops : List Op} {s : State} (hrun : run ops = .ok s) : Inv s := by
  suffices haux : ∀ (l : List Op) (s0 sf : State), Inv s0 → l.foldlM step s0 = .ok sf → Inv sf by
    exact haux ops initState s inv_init hrun
  intro l
  induction l with
  | nil =>
    intro s0 sf h0 hf
    simp only [List.foldlM_nil] at hf
    injection hf with hf
    rw [← hf]
    exact h0
  | cons op ops ih =>
    intro s0 sf h0 hf
    rw [List.foldlM_cons] at hf
    cases hstep : step s0 op with
    | error e =>
      rw [hstep] at hf
      cases hf
    | ok s1 =>
      rw [hstep] at hf
      exact ih s1 sf (step_inv h0 hstep).1 hf


/-! ### The claims -/

/-- C1: for every sequence of default/raw-pointer/copy/move constructions,
assignments, resets, and destructions of handles, `use_count()` on any live
`SharedPtr` that references a control block equals the number of currently
live strong handles referencing that block — every handle that increments the
strong count decrements it exactly once. -/
theorem use_count_eq_live_strong_handles (ops : List Op) (s : State)
    (hrun : run ops = .ok s) (h : Nat) (p : SPtr)
    (hh : s.shared[h]? = some (some p)) (b : Nat) (hb : p.ptr_counter_ = some b) :
    use_count s h = some (strongRefCount s.shared b) := by
  have hInv := run_inv hrun
  obtain ⟨blk, hblk, _⟩ := hInv.noDangle h p b hh hb
  simp only [use_count, hh, hb, hblk]
  dsimp only [Option.map]
  rw [hInv.strongEq b blk hblk]

/-- Witness for C1 on the concrete trace `new int(7)` then one copy: the copy
has `use_count() = 2`, matching the two live handles. -/
theorem use_count_eq_live_strong_handles_witness :
    run [.sFromRaw 7, .sCopy 0] =
      .ok ⟨[⟨.direct, 2, 0, 0, 0, 7⟩],
           [some ⟨some 0, some (.obj 0)⟩, some ⟨some 0, some (.obj 0)⟩], [], 1, []⟩ ∧
    use_count ⟨[⟨.direct, 2, 0, 0, 0, 7⟩],
           [some ⟨some 0, some (.obj 0)⟩, some ⟨some 0, some (.obj 0)⟩], [], 1, []⟩ 1 =
      some (strongRefCount
        (⟨[⟨.direct, 2, 0, 0, 0, 7⟩],
          [some ⟨some 0, some (.obj 0)⟩, some ⟨some 0, some (.obj 0)⟩], [], 1, []⟩ :
          State).shared 0) :=
  ⟨by decide,
   use_count_eq_live_strong_handles [.sFromRaw 7, .sCopy 0] _ (by decide) 1
     ⟨some 0, some (.obj 0)⟩ (by decide) 0 (by decide)⟩

/-- C9: self-assignment of a `SharedPtr` (copy or move) and of a `WeakPtr`
(copy or move) is a no-op: the resulting state is the original state, so
`use_count()`, `get()`, the referenced control block and `expired()` are all
unchanged and no count is touched. -/
theorem self_assignment_noop (s : State) (h w : Nat) :
    step s (.sCopyAssign h h) = .ok s ∧ step s (.sMoveAssign h h) = .ok s ∧
    step s (.wCopyAssign w w) = .ok s ∧ step s (.wMoveAssign w w) = .ok s := by
  refine ⟨?_, ?_, ?_, ?_⟩ <;> simp [step]

/-- C6 (the code, evaluated): `MakeShared` does NOT perform a single
allocation producing one Combined block wrapped by the handle.  The
statement `SharedPtr<T> ptr(temp_ptr)` at line 380 passes a
`NonDirectPtrCounter*`, and overload resolution selects the template
constructor `SharedPtr(Y*)` (lines 130-146, an Exact Match with
`Y = NonDirectPtrCounter`) over the non-template
`SharedPtr(BasePtrCounter*)` (lines 121-128, which needs a derived-to-base
Conversion).  That constructor allocates a SECOND block — a hidden
`DirectPtrCounter<NonDirectPtrCounter>` — so `allocCount` rises by exactly
two, not one; the handle's counter is the hidden direct block (strong count
`1`), its cached `ptr_` is `reinterpret_cast<T*>(temp_ptr)` — a pointer to
the combined counter's storage, not to the constructed `T` — and the
combined `NonDirectPtrCounter` is orphaned with both counts `0`, never again
reached through any handle. -/
theorem make_shared_double_allocation (s : State) (v : Nat) :
    step s (.sMake v) =
      .ok ⟨s.blocks ++ [⟨.directToCounter s.orphans.length, 1, 0, 0, 0, v⟩],
           s.shared ++
             [some ⟨some s.blocks.length, some (.counterStorage s.orphans.length)⟩],
           s.weak, s.allocCount + 2,
           s.orphans ++ [⟨.combined, 0, 0, 0, 0, v⟩]⟩ ∧
    use_count ⟨s.blocks ++ [⟨.directToCounter s.orphans.length, 1, 0, 0, 0, v⟩],
           s.shared ++
             [some ⟨some s.blocks.length, some (.counterStorage s.orphans.length)⟩],
           s.weak, s.allocCount + 2,
           s.orphans ++ [⟨.combined, 0, 0, 0, 0, v⟩]⟩ s.shared.length = some 1 ∧
    get_of ⟨s.blocks ++ [⟨.directToCounter s.orphans.length, 1, 0, 0, 0, v⟩],
           s.shared ++
             [some ⟨some s.blocks.length, some (.counterStorage s.orphans.length)⟩],
           s.weak, s.allocCount + 2,
           s.orphans ++ [⟨.combined, 0, 0, 0, 0, v⟩]⟩ s.shared.length =
      some (some (.counterStorage s.orphans.length)) ∧
    PtrVal.pointsToObject (.counterStorage s.orphans.length) = false ∧
    (s.orphans ++ [⟨.combined, 0, 0, 0, 0, v⟩])[s.orphans.length]? =
      some ⟨.combined, 0, 0, 0, 0, v⟩ := by
  refine ⟨rfl, ?_, ?_, rfl, List.getElem?_concat_length _ _⟩
  · simp only [use_count]
    rw [List.getElem?_concat_length]
    dsimp only
    rw [List.getElem?_concat_length]
    rfl
  · simp only [get_of]
    rw [List.getElem?_concat_length]

/-- C10: copy-constructing a `SharedPtr` from an empty one (null
`ptr_counter_`) is well defined: it touches no control block (`blocks` is
unchanged) and yields another empty handle whose `get()` is null and whose
`use_count()` is `0`. -/
theorem copy_of_empty_shared_is_empty (ops : List Op) (s : State)
    (hrun : run ops = .ok s) (h : Nat) (p : SPtr)
    (hh : s.shared[h]? = some (some p)) (hc : p.ptr_counter_ = none) :
    step s (.sCopy h) =
      .ok ⟨s.blocks, s.shared ++ [some ⟨none, none⟩], s.weak, s.allocCount, s.orphans⟩ ∧
    use_count ⟨s.blocks, s.shared ++ [some ⟨none, none⟩], s.weak, s.allocCount, s.orphans⟩
      s.shared.length = some 0 ∧
    get_of ⟨s.blocks, s.shared ++ [some ⟨none, none⟩], s.weak, s.allocCount, s.orphans⟩
      s.shared.length = some none := by
  have hInv := run_inv hrun
  have hptr : p.ptr_ = none := hInv.emptyPtr h p hh hc
  have hget : sharedGet s p = .ok none := by simp [sharedGet, hptr, hc]
  refine ⟨?_, ?_, ?_⟩
  · simp only [step]
    rw [show getShared s h = .ok p from getShared_ok.mpr hh]
    dsimp only
    rw [hget]
    dsimp only
    rw [hc]
  · simp only [use_count]
    rw [List.getElem?_concat_length]
  · simp only [get_of]
    rw [List.getElem?_concat_length]

/-- Witness for C10: copying the default-constructed empty handle. -/
theorem copy_of_empty_shared_is_empty_witness :
    step ⟨[], [some ⟨none, none⟩], [], 0, []⟩ (.sCopy 0) =
      .ok ⟨[], [some ⟨none, none⟩, some ⟨none, none⟩], [], 0, []⟩ ∧
    use_count ⟨[], [some ⟨none, none⟩, some ⟨none, none⟩], [], 0, []⟩ 1 = some 0 ∧
    get_of ⟨[], [some ⟨none, none⟩, some ⟨none, none⟩], [], 0, []⟩ 1 = some none :=
  copy_of_empty_shared_is_empty [.sDefault] ⟨[], [some ⟨none, none⟩], [], 0, []⟩
    (by decide) 0 ⟨none, none⟩ (by decide) (by decide)


/-- C2 (the code, evaluated): the combined block created by `MakeShared` never
has `destroy()` invoked on it, not even when the last strong owner goes away.
Because of the overload-resolution defect at line 380 (see C6) the handle
owns a hidden `DirectPtrCounter<NonDirectPtrCounter>` whose stored pointer is
the combined `NonDirectPtrCounter`; when the last owner is dropped the
destructor protocol (lines 238-249) runs `destroy()` and `deallocate()` on
that HIDDEN block only.  In the trace `MakeShared(5)` then drop: the hidden
block (in `blocks`) records one `destroy()` invocation, while the combined
factory block (in `orphans`) still records zero — its strong count was never
raised above `0`, so no strong-count transition of that block ever occurs
and the claimed "exactly once, at the 1 → 0 transition" fails for the very
block holding the managed object. -/
theorem factory_block_destroy_never_invoked :
    run [.sMake 5, .sDrop 0] =
      .ok ⟨[⟨.directToCounter 0, 0, 0, 1, 1, 5⟩], [none], [], 2,
           [⟨.combined, 0, 0, 0, 0, 5⟩]⟩ ∧
    ((⟨[⟨.directToCounter 0, 0, 0, 1, 1, 5⟩], [none], [], 2,
       [⟨.combined, 0, 0, 0, 0, 5⟩]⟩ : State).orphans[0]?).map Block.destroyCount =
      some 0 ∧
    ((⟨[⟨.directToCounter 0, 0, 0, 1, 1, 5⟩], [none], [], 2,
       [⟨.combined, 0, 0, 0, 0, 5⟩]⟩ : State).orphans[0]?).map Block.shared_count_ =
      some 0 ∧
    ((⟨[⟨.directToCounter 0, 0, 0, 1, 1, 5⟩], [none], [], 2,
       [⟨.combined, 0, 0, 0, 0, 5⟩]⟩ : State).blocks[0]?).map Block.destroyCount =
      some 1 :=
  ⟨by decide, by decide, by decide, by decide⟩

/-- C3 (the code, evaluated): the combined block created by `MakeShared` never
has `deallocate()` invoked on it, even once its strong and weak counts are
simultaneously `0`.  In the trace `MakeShared(9)` then drop of the only
owner, the release protocol (lines 238-249) invokes `deallocate()` on the
hidden `DirectPtrCounter<NonDirectPtrCounter>` (see C6) — recorded on the
`blocks` entry — while the orphaned combined `NonDirectPtrCounter`, whose
strong AND weak counts are both `0` from birth, records zero `deallocate()`
invocations: its storage is never released through its own `deallocate()`
(the combined allocation is instead freed by the `delete` inside the hidden
block's `destroy()`), so the claimed "freed exactly once, via `deallocate`,
when both counts are simultaneously 0" fails for the factory's block. -/
theorem factory_block_deallocate_never_invoked :
    run [.sMake 9, .sDrop 0] =
      .ok ⟨[⟨.directToCounter 0, 0, 0, 1, 1, 9⟩], [none], [], 2,
           [⟨.combined, 0, 0, 0, 0, 9⟩]⟩ ∧
    ((⟨[⟨.directToCounter 0, 0, 0, 1, 1, 9⟩], [none], [], 2,
       [⟨.combined, 0, 0, 0, 0, 9⟩]⟩ : State).orphans[0]?).map Block.deallocCount =
      some 0 ∧
    ((⟨[⟨.directToCounter 0, 0, 0, 1, 1, 9⟩], [none], [], 2,
       [⟨.combined, 0, 0, 0, 0, 9⟩]⟩ : State).orphans[0]?).map Block.shared_count_ =
      some 0 ∧
    ((⟨[⟨.directToCounter 0, 0, 0, 1, 1, 9⟩], [none], [], 2,
       [⟨.combined, 0, 0, 0, 0, 9⟩]⟩ : State).orphans[0]?).map Block.weak_count_ =
      some 0 ∧
    ((⟨[⟨.directToCounter 0, 0, 0, 1, 1, 9⟩], [none], [], 2,
       [⟨.combined, 0, 0, 0, 0, 9⟩]⟩ : State).blocks[0]?).map Block.deallocCount =
      some 1 :=
  ⟨by decide, by decide, by decide, by decide, by decide⟩


/-- C4 (the code, evaluated): `lock()` does not return a Shared Handle.  Its
declared return type is the raw `BasePtrCounter*`.  On a non-expired weak
handle it returns that raw counter pointer unchanged — `lock` is a pure
observation here, so no `SharedPtr` is constructed and the strong count stays
`1` instead of being incremented to `2`.  On an expired handle its body is
the ill-formed expression constructing a `std::runtime_error`, modelled as an
error-valued result carrying the source's message, not an empty handle. -/
theorem lock_returns_raw_counter_not_handle :
    run [.sFromRaw 5, .wFromShared 0] =
      .ok ⟨[⟨.direct, 1, 1, 0, 0, 5⟩], [some ⟨some 0, some (.obj 0)⟩],
           [some (some 0)], 1, []⟩ ∧
    lock ⟨[⟨.direct, 1, 1, 0, 0, 5⟩], [some ⟨some 0, some (.obj 0)⟩],
          [some (some 0)], 1, []⟩ 0 = .ok (.ok (some 0)) ∧
    (((⟨[⟨.direct, 1, 1, 0, 0, 5⟩], [some ⟨some 0, some (.obj 0)⟩],
        [some (some 0)], 1, []⟩ :
        State).blocks[0]?).map Block.shared_count_) = some 1 ∧
    run [.sFromRaw 5, .wFromShared 0, .sDrop 0] =
      .ok ⟨[⟨.direct, 0, 1, 1, 0, 5⟩], [none], [some (some 0)], 1, []⟩ ∧
    expired ⟨[⟨.direct, 0, 1, 1, 0, 5⟩], [none], [some (some 0)], 1, []⟩ 0 = .ok true ∧
    lock ⟨[⟨.direct, 0, 1, 1, 0, 5⟩], [none], [some (some 0)], 1, []⟩ 0 =
      .ok (.error "Попытка обратиться по устарелой ссылке") :=
  ⟨by decide, by decide, by decide, by decide, by decide, by decide⟩

/-- C5 (the code, evaluated): `WeakPtr` copy assignment never adopts the
source's block.  After `w0 = w1` (with `w0` observing block `0` and `w1`
observing block `1`), the release protocol has run on `w0`'s old block
(block `0`'s weak count fell from `1` to `0`) and block `1`'s weak count was
incremented to `2` — but `w0.ptr_counter_` still points at block `0`, not at
`w1`'s block, because `operator=` (lines 326-336) never assigns
`ptr_counter_`. -/
theorem weak_copy_assign_never_adopts :
    run [.sFromRaw 1, .sFromRaw 2, .wFromShared 0, .wFromShared 1, .wCopyAssign 0 1] =
      .ok ⟨[⟨.direct, 1, 0, 0, 0, 1⟩, ⟨.direct, 1, 2, 0, 0, 2⟩],
           [some ⟨some 0, some (.obj 0)⟩, some ⟨some 1, some (.obj 1)⟩],
           [some (some 0), some (some 1)], 2, []⟩ ∧
    (⟨[⟨.direct, 1, 0, 0, 0, 1⟩, ⟨.direct, 1, 2, 0, 0, 2⟩],
      [some ⟨some 0, some (.obj 0)⟩, some ⟨some 1, some (.obj 1)⟩],
      [some (some 0), some (some 1)], 2, []⟩ : State).weak[0]? = some (some (some 0)) ∧
    (⟨[⟨.direct, 1, 0, 0, 0, 1⟩, ⟨.direct, 1, 2, 0, 0, 2⟩],
      [some ⟨some 0, some (.obj 0)⟩, some ⟨some 1, some (.obj 1)⟩],
      [some (some 0), some (some 1)], 2, []⟩ : State).weak[0]? ≠ some (some (some 1)) ∧
    ((⟨[⟨.direct, 1, 0, 0, 0, 1⟩, ⟨.direct, 1, 2, 0, 0, 2⟩],
       [some ⟨some 0, some (.obj 0)⟩, some ⟨some 1, some (.obj 1)⟩],
       [some (some 0), some (some 1)], 2, []⟩ : State).blocks[1]?).map Block.weak_count_ =
      some 2 ∧
    ((⟨[⟨.direct, 1, 0, 0, 0, 1⟩, ⟨.direct, 1, 2, 0, 0, 2⟩],
       [some ⟨some 0, some (.obj 0)⟩, some ⟨some 1, some (.obj 1)⟩],
       [some (some 0), some (some 1)], 2, []⟩ : State).blocks[0]?).map Block.weak_count_ =
      some 0 :=
  ⟨by decide, by decide, by decide, by decide, by decide⟩

/-- C7 counterexample: constructing a `WeakPtr` from an empty `SharedPtr`
does NOT fail via an assertion or guard — the constructor (lines 305-311)
unconditionally executes `ptr_counter_->increment_weak_count()` and so
dereferences the absent (null) control block: the trace faults with
`Err.nullDeref`, which is not the assertion outcome `Err.assertFailed` (an
outcome no source operation can produce, since the source contains no
assertions). -/
theorem weak_from_empty_shared_counterexample :
    run [.sDefault, .wFromShared 0] = .error .nullDeref ∧
    Err.nullDeref ≠ Err.assertFailed :=
  ⟨by decide, by decide⟩

/-- C7 as amended: constructing a `WeakPtr` from ANY empty `SharedPtr` (in
any state) dereferences the null block pointer — a crash/undefined behaviour,
not a guarded assertion; no weak handle is silently produced. -/
theorem weak_from_empty_shared_derefs_null (s : State) (h : Nat) (p : SPtr)
    (hh : s.shared[h]? = some (some p)) (hc : p.ptr_counter_ = none) :
    step s (.wFromShared h) = .error .nullDeref := by
  simp only [step]
  rw [show getShared s h = .ok p from getShared_ok.mpr hh]
  dsimp only
  rw [hc]

/-- Witness for the amended C7 at the default-constructed empty handle. -/
theorem weak_from_empty_shared_derefs_null_witness :
    step ⟨[], [some ⟨none, none⟩], [], 0, []⟩ (.wFromShared 0) = .error .nullDeref :=
  weak_from_empty_shared_derefs_null ⟨[], [some ⟨none, none⟩], [], 0, []⟩ 0 ⟨none, none⟩
    (by decide) (by decide)

/-- C8 counterexample: `decrement_shared_count` / `decrement_weak_count` on a
count that is already `0` are not guarded by any assertion or trap — the
unsigned counter silently wraps to `2 ^ 32 - 1`. -/
theorem decrement_at_zero_wraps :
    decrement_shared_count 0 = 2 ^ 32 - 1 ∧ decrement_weak_count 0 = 2 ^ 32 - 1 :=
  ⟨by norm_num [decrement_shared_count], by norm_num [decrement_weak_count]⟩

/-- C8 as amended: the primitive decrements are unguarded and wrap modulo
`2 ^ 32` when invoked at `0` (first two conjuncts; the third shows the normal
in-range behaviour).  The handle release protocols avoid the wrap by testing
the count before decrementing: running the strong release on a block whose
strong count is already `0`, or the weak release on a block whose weak count
is already `0` (while owners remain), leaves the state completely
unchanged. -/
theorem decrement_unguarded_wraps_callers_guard :
    decrement_shared_count 0 = 2 ^ 32 - 1 ∧
    decrement_weak_count 0 = 2 ^ 32 - 1 ∧
    (∀ (c : Nat), 0 < c → c < 2 ^ 32 → decrement_shared_count c = c - 1) ∧
    (∀ (s : State) (b : Nat) (blk : Block), s.blocks[b]? = some blk →
      blk.deallocCount = 0 → blk.shared_count_ = 0 →
      sharedRelease s (some b) = .ok s) ∧
    (∀ (s : State) (b : Nat) (blk : Block), s.blocks[b]? = some blk →
      blk.deallocCount = 0 → blk.weak_count_ = 0 → blk.shared_count_ ≠ 0 →
      weakRelease s (some b) = .ok s) := by
  refine ⟨by norm_num [decrement_shared_count], by norm_num [decrement_weak_count], ?_, ?_, ?_⟩
  · intro c hc hlt
    unfold decrement_shared_count
    omega
  · intro s b blk hb hd hz
    have hgl : getLiveBlock s b = .ok blk := getLiveBlock_ok.mpr ⟨hb, hd⟩
    simp only [sharedRelease, hgl]
    rw [if_neg (by omega : ¬ blk.shared_count_ > 0)]
  · intro s b blk hb hd hw hs
    have hgl : getLiveBlock s b = .ok blk := getLiveBlock_ok.mpr ⟨hb, hd⟩
    simp only [weakRelease, hgl]
    have hwrel : wrelBlock blk = blk := by
      unfold wrelBlock
      rw [if_neg (by omega : ¬ blk.weak_count_ > 0)]
      rw [if_neg (by
        intro hcc
        exact hs hcc.2)]
    rw [hwrel]
    have hset : s.blocks.set b blk = s.blocks := by
      have hlen := lt_of_getElem?_some hb
      apply List.ext_getElem?
      intro n
      by_cases hn : b = n
      · subst hn
        rw [List.getElem?_set_eq_of_lt _ hlen, hb]
      · rw [List.getElem?_set_ne hn]
    show Except.ok (setBlock s b blk) = Except.ok s
    rw [setBlock, hset]

/-- Witness for the amended C8: the in-range decrement at `5`, and the
strong-release no-op on a concrete destroyed-but-weakly-held block. -/
theorem decrement_unguarded_wraps_callers_guard_witness :
    decrement_shared_count 5 = 4 ∧
    sharedRelease ⟨[⟨.direct, 0, 1, 1, 0, 9⟩], [], [some (some 0)], 1, []⟩ (some 0) =
      .ok ⟨[⟨.direct, 0, 1, 1, 0, 9⟩], [], [some (some 0)], 1, []⟩ :=
  ⟨decrement_unguarded_wraps_callers_guard.2.2.1 5 (by decide) (by norm_num),
   decrement_unguarded_wraps_callers_guard.2.2.2.1
     ⟨[⟨.direct, 0, 1, 1, 0, 9⟩], [], [some (some 0)], 1, []⟩ 0 ⟨.direct, 0, 1, 1, 0, 9⟩
     (by decide) (by decide) (by decide)⟩

end SmartPtr
